import Mathlib

/-!
Verification development for the ember-feed aggregator analyzers
(`app/analyzers/deduplicator.py`, `velocity_calculator.py`, `hot_scorer.py`,
`keyword_extractor.py`).

The Python code is shallowly embedded: pure functions become Lean functions,
Python `float` arithmetic is idealized as exact rational/real arithmetic,
`datetime` instants are rational POSIX seconds, and code that can raise is
embedded with `Option` (`none` = the call raises).

External libraries are embedded after the specification's description of them:
* `datasketch` MinHash/LSH (spec section 4.2): a signature is the article's
  3-word shingle set and the index query compares estimated Jaccard
  similarity against the threshold; empty shingle sets never match anything.
* `rake_nltk` ranking (spec section 4.1): the ranked-phrase list returned by
  RAKE is taken as an explicit input of the embedded extractor.
* ISO-8601 date parsing (`datetime.fromisoformat` / `dateutil`): a timestamp
  string is represented by its parse outcome (`TimeStr.ok` with the parsed
  instant, or `TimeStr.bad` for an unparseable string).
-/

namespace EmberFeed

/-! ## Python string primitives -/

/-- Python whitespace class `\s` (ASCII): space, tab, newline, vertical tab,
form feed, carriage return. -/
def is_space (c : Char) : Bool :=
  c == ' ' || c == '\t' || c == '\n' || c == '\x0b' || c == '\x0c' || c == '\r'

/-- ASCII alphanumeric characters, the class `[a-zA-Z0-9]`. -/
def is_alnum (c : Char) : Bool :=
  ('a' ≤ c && c ≤ 'z') || ('A' ≤ c && c ≤ 'Z') || ('0' ≤ c && c ≤ '9')

/-- Scanner for the regex `<[^>]+>` (leftmost, non-overlapping). The first
argument is `none` while scanning outside a candidate tag; after an opening
`<` it is `some buf` with the following non-`>` characters buffered in
reverse. A closing `>` after at least one buffered character completes a
match and the buffer is discarded; `<>` and an unclosed `<` do not match and
the buffered characters are emitted (no new match can start inside them,
since a buffer holds no `<`-free restart point for this pattern: a later
match attempt would re-find the same closing `>` first). -/
def strip_tags_go : Option (List Char) → List Char → List Char
  | none, [] => []
  | some buf, [] => '<' :: buf.reverse
  | none, c :: rest =>
    if c = '<' then strip_tags_go (some []) rest
    else c :: strip_tags_go none rest
  | some buf, c :: rest =>
    if c = '>' then
      if buf = [] then '<' :: '>' :: strip_tags_go none rest
      else strip_tags_go none rest
    else strip_tags_go (some (c :: buf)) rest

/-- `re.sub(r'<[^>]+>', '', text)` — remove HTML tags
(deduplicator.py line 203). -/
def strip_tags (cs : List Char) : List Char := strip_tags_go none cs

/-- Scanner state for the regex `http[s]?://\S+`. -/
inductive UrlScan where
  /-- scanning plain text -/
  | out : UrlScan
  /-- consuming the rest of the literal `http` (buffer kept in reverse) -/
  | pre1 (buf : List Char) (need : List Char) : UrlScan
  /-- after `http`, expecting the optional `s` or the `:` -/
  | opts (buf : List Char) : UrlScan
  /-- consuming the rest of `://` -/
  | pre2 (buf : List Char) (need : List Char) : UrlScan
  /-- after `://`, requiring at least one non-space character -/
  | body (buf : List Char) : UrlScan
  /-- inside the matched `\S+` — characters are dropped -/
  | inurl : UrlScan

/-- Scanner for `re.sub(r'http[s]?://\S+', '', text)`. On a failed partial
match the buffered characters are emitted verbatim and scanning resumes at
the current character: this is faithful to the regex because a buffered
partial match (a proper prefix of `https://`) contains no `h` after its
first character, so no other match can begin inside it. -/
def strip_urls_go : UrlScan → List Char → List Char
  | .out, [] => []
  | .pre1 buf _, [] => buf.reverse
  | .opts buf, [] => buf.reverse
  | .pre2 buf _, [] => buf.reverse
  | .body buf, [] => buf.reverse
  | .inurl, [] => []
  | .out, c :: rest =>
    if c = 'h' then strip_urls_go (.pre1 ['h'] ['t', 't', 'p']) rest
    else c :: strip_urls_go .out rest
  | .pre1 buf need, c :: rest =>
    match need with
    | [] => buf.reverse ++ c :: strip_urls_go .out rest
    | n :: ns =>
      if c = n then
        if ns = [] then strip_urls_go (.opts (c :: buf)) rest
        else strip_urls_go (.pre1 (c :: buf) ns) rest
      else
        buf.reverse ++
          (if c = 'h' then strip_urls_go (.pre1 ['h'] ['t', 't', 'p']) rest
           else c :: strip_urls_go .out rest)
  | .opts buf, c :: rest =>
    if c = 's' then strip_urls_go (.pre2 (c :: buf) [':', '/', '/']) rest
    else if c = ':' then strip_urls_go (.pre2 (c :: buf) ['/', '/']) rest
    else
      buf.reverse ++
        (if c = 'h' then strip_urls_go (.pre1 ['h'] ['t', 't', 'p']) rest
         else c :: strip_urls_go .out rest)
  | .pre2 buf need, c :: rest =>
    match need with
    | [] => buf.reverse ++ c :: strip_urls_go .out rest
    | n :: ns =>
      if c = n then
        if ns = [] then strip_urls_go (.body (c :: buf)) rest
        else strip_urls_go (.pre2 (c :: buf) ns) rest
      else
        buf.reverse ++
          (if c = 'h' then strip_urls_go (.pre1 ['h'] ['t', 't', 'p']) rest
           else c :: strip_urls_go .out rest)
  | .body buf, c :: rest =>
    if is_space c then buf.reverse ++ c :: strip_urls_go .out rest
    else strip_urls_go .inurl rest
  | .inurl, c :: rest =>
    if is_space c then c :: strip_urls_go .out rest
    else strip_urls_go .inurl rest

/-- `re.sub(r'http[s]?://\S+', '', text)` — remove URLs
(deduplicator.py line 206). -/
def strip_urls (cs : List Char) : List Char := strip_urls_go .out cs

/-- `re.sub(r'[^a-zA-Z0-9\s]', ' ', text)` — replace special characters by a
space (deduplicator.py line 209). -/
def specials_to_space (cs : List Char) : List Char :=
  cs.map (fun c => if is_alnum c || is_space c then c else ' ')

/-- `re.sub(r'\s+', ' ', text)` — collapse whitespace runs to a single space
(deduplicator.py line 212). -/
def collapse_ws : List Char → List Char
  | [] => []
  | [c] => if is_space c then [' '] else [c]
  | c1 :: c2 :: rest =>
    if is_space c1 && is_space c2 then collapse_ws (c2 :: rest)
    else (if is_space c1 then ' ' else c1) :: collapse_ws (c2 :: rest)

/-- Python `str.strip()`: drop leading and trailing whitespace. -/
def py_strip (cs : List Char) : List Char :=
  ((cs.dropWhile is_space).reverse.dropWhile is_space).reverse

/-- `ArticleDeduplicator._clean_text` (deduplicator.py lines 191-214). -/
def clean_text (s : String) : String :=
  String.mk (py_strip (collapse_ws (specials_to_space (strip_urls (strip_tags s.data)))))

/-- Accumulator for `split_ws`: `cur` is the current word, reversed. -/
def split_ws_go (cur : List Char) : List Char → List (List Char)
  | [] => if cur = [] then [] else [cur.reverse]
  | c :: rest =>
    if is_space c then
      if cur = [] then split_ws_go [] rest
      else cur.reverse :: split_ws_go [] rest
    else split_ws_go (c :: cur) rest

/-- Python `str.split()` — split on whitespace runs, discarding empty parts. -/
def split_ws (cs : List Char) : List (List Char) := split_ws_go [] cs

/-- Python `str.lower()` (ASCII range, which covers the code's inputs). -/
def py_lower (s : String) : String := String.mk (s.data.map Char.toLower)

/-- Stable insertion: place `x` after every element that strictly precedes
it (`gt y x` = `y` strictly precedes `x` in sort order). -/
def stable_insert {α : Type} (gt : α → α → Bool) (x : α) : List α → List α
  | [] => [x]
  | y :: ys => if gt y x then y :: stable_insert gt x ys else x :: y :: ys

/-- Python `list.sort` / `sorted`: a stable sort. Insertion sort produces
the same list as any stable sort for the strict-precedence relation `gt`
(elements that do not strictly precede each other keep input order). -/
def stable_sort {α : Type} (gt : α → α → Bool) : List α → List α
  | [] => []
  | x :: xs => stable_insert gt x (stable_sort gt xs)

/-! ## Similarity deduplicator (`deduplicator.py`) -/

/-- An article record as consumed by the deduplicator: only `url`, `title`
and `text` are read (`article.get("url"/"title"/"text", "")`). -/
structure DArticle where
  url : String
  title : String
  text : String
deriving DecidableEq

/-- `ArticleDeduplicator._create_shingles` (deduplicator.py lines 170-189):
the set of contiguous `k`-word shingles of the lower-cased text. -/
def create_shingles (text : String) (k : ℕ) : Finset String :=
  let words := split_ws (text.data.map Char.toLower)
  ((List.range (words.length + 1 - k)).map
    (fun i => String.mk (List.intercalate [' '] ((words.drop i).take k)))).toFinset

/-- `ArticleDeduplicator._create_minhash` (deduplicator.py lines 142-168).
Modelled from the spec: the `datasketch` MinHash signature is idealized as
the shingle set itself (spec section 4.2 step 4, the signature is a sketch
of the shingle set determining estimated Jaccard similarity). -/
def create_minhash (a : DArticle) : Finset String :=
  create_shingles (clean_text (a.title ++ " " ++ a.text)) 3

/-- Estimated Jaccard similarity of two signatures. Modelled from the spec
(section 4.2 step 5): the LSH query compares estimated Jaccard similarity
with the threshold, and "empty shingle sets produce a signature with no
meaningful similarity to anything (effectively never matching)" — the
division convention `0 / 0 = 0` realises exactly that for two empty sets. -/
def jacc (A B : Finset String) : ℚ :=
  ((A ∩ B).card : ℚ) / ((A ∪ B).card : ℚ)

/-- The `ArticleDeduplicator` instance state: constructor arguments plus the
`MinHashLSH` index contents (deduplicator.py lines 22-38). -/
structure DedupInst where
  threshold : ℚ
  num_perm : ℕ
  sigs : List (Finset String)
deriving DecidableEq

/-- `ArticleDeduplicator.__init__` (deduplicator.py lines 22-38): fresh
instance with an empty LSH index. -/
def mk_deduplicator (threshold : ℚ) (num_perm : ℕ) : DedupInst :=
  ⟨threshold, num_perm, []⟩

/-- The loop of `ArticleDeduplicator.deduplicate_articles` (deduplicator.py
lines 60-91), processing `(index, article)` pairs in order. State: inserted
LSH signatures `sigs` and per-run `seen` URLs. Returns the kept
`(index, article)` pairs together with the final LSH index contents. -/
def dedup_go (θ : ℚ) (sigs : List (Finset String)) (seen : List String) :
    List (ℕ × DArticle) → List (ℕ × DArticle) × List (Finset String)
  | [] => ([], sigs)
  | (i, a) :: rest =>
    if a.url ≠ "" ∧ a.url ∈ seen then dedup_go θ sigs seen rest
    else
      let sig := create_minhash a
      if sigs.any (fun s => decide (θ ≤ jacc sig s)) then dedup_go θ sigs seen rest
      else
        let r := dedup_go θ (sigs ++ [sig])
          (if a.url ≠ "" then seen ++ [a.url] else seen) rest
        ((i, a) :: r.1, r.2)

/-- `ArticleDeduplicator.deduplicate_articles` (deduplicator.py lines
40-104): returns the updated instance (the LSH index is an instance field
and keeps its contents) and the list of unique articles. -/
def deduplicate_articles (inst : DedupInst) (articles : List DArticle) :
    DedupInst × List DArticle :=
  match articles with
  | [] => (inst, [])
  | _ =>
    let r := dedup_go inst.threshold inst.sigs [] articles.enum
    ({ inst with sigs := r.2 }, r.1.map Prod.snd)

/-- `ArticleDeduplicator.reset` (deduplicator.py lines 216-218): replace the
LSH index with a fresh one. -/
def dedup_reset (inst : DedupInst) : DedupInst :=
  { inst with sigs := [] }

/-- Convenience function `deduplicate` (deduplicator.py lines 222-237):
fresh deduplicator with the given threshold and default `num_perm = 128`. -/
def deduplicate (articles : List DArticle) (threshold : ℚ) : List DArticle :=
  (deduplicate_articles (mk_deduplicator threshold 128) articles).2

/-! ## Velocity calculator (`velocity_calculator.py`) -/

/-- A timestamp string, represented by its parse outcome. Modelled from the
spec: ISO-8601 parsing (`datetime.fromisoformat` with the `Z` replacement,
and `dateutil.parser.parse`) is external; `ok t` stands for a string that
parses to the instant `t` (rational POSIX seconds), `bad s` for a string on
which the parser raises. -/
inductive TimeStr where
  | ok (t : ℚ) : TimeStr
  | bad (s : String) : TimeStr
deriving DecidableEq

/-- `datetime.fromisoformat(entry["date"].replace('Z', '+00:00'))`
(velocity_calculator.py line 225): `none` means the parse raises. -/
def parse_date : TimeStr → Option ℚ
  | .ok t => some t
  | .bad _ => none

/-- One keyword-history point, `{date, mentions, sources}` — only `date` and
`mentions` are read by the calculator. -/
structure HistEntry where
  date : TimeStr
  mentions : ℤ
deriving DecidableEq

/-- Python `int(x)` on a float: truncation toward zero. -/
def py_int (q : ℚ) : ℤ := if 0 ≤ q then ⌊q⌋ else ⌈q⌉

/-- The entry loop of `VelocityCalculator._calculate_previous_volume`
(velocity_calculator.py lines 222-228): parse each entry's date (a raise
anywhere aborts the whole computation, hence `none`) and collect the
`mentions` of entries whose date lies in the window. -/
def window_mentions (start_date end_date : ℚ) : List HistEntry → Option (List ℤ)
  | [] => some []
  | e :: rest =>
    match parse_date e.date with
    | none => none
    | some d =>
      (window_mentions start_date end_date rest).map
        (fun ms => if start_date ≤ d ∧ d ≤ end_date then e.mentions :: ms else ms)

/-- `VelocityCalculator._calculate_previous_volume` (velocity_calculator.py
lines 198-234); `now` is `datetime.now(timezone.utc)` passed explicitly,
`none` means the computation raises on a malformed date string. -/
def calculate_previous_volume (now : ℚ) (history : List HistEntry)
    (timeframe_days : ℕ) : Option ℤ :=
  if history = [] then some 0
  else
    let end_date := now - (timeframe_days : ℚ) * 86400
    let start_date := end_date - (timeframe_days : ℚ) * 86400
    match window_mentions start_date end_date history with
    | none => none
    | some ms =>
      if ms = [] then some 0
      else some (py_int ((ms.sum : ℚ) / (ms.length : ℚ)))

/-- `VelocityCalculator.calculate_velocity` (velocity_calculator.py lines
39-67). -/
def calculate_velocity (current_volume previous_volume : ℤ)
    (time_period_days : ℕ) : ℚ :=
  if previous_volume = 0 then (current_volume : ℚ) * 10
  else
    let velocity : ℚ := ((current_volume : ℚ) - (previous_volume : ℚ)) / (time_period_days : ℚ)
    let magnitude_weight : ℚ := 1 + (current_volume : ℚ) / 100
    velocity * magnitude_weight

/-- `VelocityCalculator.calculate_percent_growth` (velocity_calculator.py
lines 69-89). -/
def calculate_percent_growth (current_volume previous_volume : ℤ) : ℚ :=
  if previous_volume = 0 then (if 0 < current_volume then 1000 else 0)
  else ((current_volume : ℚ) - (previous_volume : ℚ)) / (previous_volume : ℚ) * 100

/-- A trending-keyword record as built by `find_trending_up_keywords`. -/
structure TrendRec where
  keyword : String
  current_volume : ℤ
  previous_volume : ℤ
  velocity : ℚ
  percent_growth : ℚ
  is_new : Bool
deriving DecidableEq

/-- Association-list read, modelling Python `dict.get`. -/
def assoc_get {α : Type} : List (String × α) → String → Option α
  | [], _ => none
  | (k, v) :: rest, key => if k = key then some v else assoc_get rest key

/-- The keyword loop of `VelocityCalculator.find_trending_up_keywords`
(velocity_calculator.py lines 110-158), before the final sort; `none` means
an iteration raised inside `_calculate_previous_volume`. -/
def trending_go (min_growth : ℚ) (min_vol : ℤ) (now : ℚ)
    (historical : List (String × List HistEntry)) (timeframe : ℕ) :
    List (String × ℤ) → Option (List TrendRec)
  | [] => some []
  | (kw, cur) :: rest =>
    let tail := trending_go min_growth min_vol now historical timeframe rest
    if cur < min_vol then tail
    else
      let history := (assoc_get historical kw).getD []
      if history = [] then
        if min_vol * 2 ≤ cur then
          tail.map (fun l => ⟨kw, cur, 0, (cur : ℚ) * 10, 1000, true⟩ :: l)
        else tail
      else
        match calculate_previous_volume now history timeframe with
        | none => none
        | some prev =>
          let vel := calculate_velocity cur prev timeframe
          let growth := calculate_percent_growth cur prev
          if min_growth ≤ growth then
            tail.map (fun l => ⟨kw, cur, prev, vel, growth, false⟩ :: l)
          else tail

/-- `VelocityCalculator.find_trending_up_keywords` (velocity_calculator.py
lines 91-169): the loop above followed by the stable descending sort by
velocity; `none` means the call raises on a malformed history date. -/
def find_trending_up_keywords (min_growth : ℚ) (min_vol : ℤ) (now : ℚ)
    (current_keywords : List (String × ℤ))
    (historical_data : List (String × List HistEntry))
    (timeframe_days : ℕ) : Option (List TrendRec) :=
  (trending_go min_growth min_vol now historical_data timeframe_days
      current_keywords).map
    (fun l => stable_sort (fun a b => decide (b.velocity < a.velocity)) l)

/-- Result of `VelocityCalculator.detect_spike`: the pair
`(is_spike, z_score)`. -/
structure SpikeResult where
  is_spike : Prop
  z_score : ℝ

open Classical in
/-- `VelocityCalculator.detect_spike` (velocity_calculator.py lines
236-273). `mean` and `variance` are exact rationals; the standard deviation
`variance ** 0.5` is the real square root. -/
noncomputable def detect_spike (current_volume : ℤ) (history : List HistEntry)
    (spike_threshold : ℝ) : SpikeResult :=
  if history.length < 3 then ⟨False, 0⟩
  else
    let vols := history.map HistEntry.mentions
    let mean : ℚ := (vols.sum : ℚ) / (vols.length : ℚ)
    let variance : ℚ := (vols.map (fun x => ((x : ℚ) - mean) ^ 2)).sum / (vols.length : ℚ)
    let std_dev : ℝ := Real.sqrt (variance : ℝ)
    if std_dev = 0 then ⟨(mean : ℝ) * 2 < (current_volume : ℝ), 0⟩
    else
      let z_score : ℝ := ((current_volume : ℝ) - (mean : ℝ)) / std_dev
      ⟨spike_threshold ≤ z_score, z_score⟩

/-! ## Hot scorer (`hot_scorer.py`)

Articles are Python dicts, mutable objects on a heap. The heap is a list of
dicts addressed by allocation index, so that mutation (or its absence) is
observable: `dict.copy()` allocates, item assignment updates in place. -/

/-- A Python value stored in an article dict: strings, ints, floats and
timestamp strings (represented by their parse outcome, see `TimeStr`). -/
inductive PyVal where
  | str (s : String) : PyVal
  | int (n : ℤ) : PyVal
  | real (x : ℝ) : PyVal
  | time (t : TimeStr) : PyVal

/-- A Python dict with string keys, as an association list in insertion
order (Python dicts preserve insertion order). -/
abbrev PyDict : Type := List (String × PyVal)

/-- A heap of dict objects; a reference is an index into the list. -/
abbrev PyHeap : Type := List PyDict

/-- Python `d.get(k)` / `d[k]`. -/
def dict_get : PyDict → String → Option PyVal
  | [], _ => none
  | (k', v) :: rest, k => if k' = k then some v else dict_get rest k

/-- Python `d[k] = v`: overwrite in place if the key exists, else append. -/
def dict_set (d : PyDict) (k : String) (v : PyVal) : PyDict :=
  if (dict_get d k).isSome then
    d.map (fun p => if p.1 = k then (k, v) else p)
  else d ++ [(k, v)]

/-- `article.get("score", 0)`-style read of an int-typed field: missing (or
non-int) values read as the default `0`. -/
def get_int (d : PyDict) (k : String) : ℤ :=
  match dict_get d k with
  | some (.int n) => n
  | _ => 0

/-- `article.get("source", "")`-style read of a string field. -/
def get_str (d : PyDict) (k : String) : String :=
  match dict_get d k with
  | some (.str s) => s
  | _ => ""

/-- Allocate a new dict object (`article.copy()` allocates): returns the
extended heap and the fresh reference. -/
def heap_alloc (h : PyHeap) (d : PyDict) : PyHeap × ℕ := (h ++ [d], h.length)

/-- In-place update of the object at reference `r`. -/
def heap_set (h : PyHeap) (r : ℕ) (k : String) (v : PyVal) : PyHeap :=
  match h[r]? with
  | some d => h.set r (dict_set d k v)
  | none => h

/-- `source_weights.get(source, 1.0)` (hot_scorer.py line 114). -/
def weight_of : List (String × ℝ) → String → ℝ
  | [], _ => 1
  | (k, w) :: rest, s => if k = s then w else weight_of rest s

/-- `HotScorer.calculate_score` (hot_scorer.py lines 34-73): the Hacker News
formula with time decay exponent `gravity`; an unparseable timestamp is
caught by the `except` branch and scores `0.0`. `now` is
`datetime.now(timezone.utc)` passed explicitly (rational POSIX seconds). -/
noncomputable def calculate_score (gravity : ℝ) (engagement : ℤ)
    (published_at : TimeStr) (now : ℚ) (source_weight : ℝ) : ℝ :=
  match published_at with
  | .bad _ => 0
  | .ok t =>
    let hours_elapsed : ℚ := max 0 ((now - t) / 3600)
    let score : ℝ :=
      ((engagement : ℝ) - 1) / ((hours_elapsed : ℝ) + 2) ^ gravity * source_weight
    max 0 score

/-- The engagement-value resolution of `HotScorer.score_articles`
(hot_scorer.py lines 96-104): explicit `score`, else `comments`, else the
minimum value `1`. -/
def resolve_engagement (d : PyDict) : ℤ :=
  let e0 := get_int d "score"
  let e1 := if e0 = 0 then get_int d "comments" else e0
  if e1 = 0 then 1 else e1

/-- The loop of `HotScorer.score_articles` (hot_scorer.py lines 94-126):
resolve the engagement value (`score`, else `comments`, else `1`), compute
the hot score (articles without a `published_at` timestamp score `0.0`),
copy the article dict and set `hot_score` on the copy. Returns the final
heap and the references of the scored copies in input order. -/
noncomputable def score_go (gravity : ℝ) (now : ℚ) (weights : List (String × ℝ)) :
    PyHeap → List ℕ → PyHeap × List ℕ
  | h, [] => (h, [])
  | h, r :: rest =>
    let d := (h[r]?).getD []
    let engagement := resolve_engagement d
    let hot : ℝ :=
      match dict_get d "published_at" with
      | some (.time ts) =>
        calculate_score gravity engagement ts now (weight_of weights (get_str d "source"))
      | _ => 0
    let al := heap_alloc h d
    let h2 := heap_set al.1 al.2 "hot_score" (.real hot)
    let pr := score_go gravity now weights h2 rest
    (pr.1, al.2 :: pr.2)

/-- The `hot_score` field of the object at `r`, used as the sort key. -/
noncomputable def hot_key (h : PyHeap) (r : ℕ) : ℝ :=
  match dict_get ((h[r]?).getD []) "hot_score" with
  | some (.real x) => x
  | _ => 0

open Classical in
/-- The final `scored_articles.sort(key=..., reverse=True)` (hot_scorer.py
lines 129-132): stable descending sort by `hot_score`. -/
noncomputable def sort_by_hot (h : PyHeap) (rs : List ℕ) : List ℕ :=
  stable_sort (fun r1 r2 => decide (hot_key h r2 < hot_key h r1)) rs

/-- `HotScorer.score_articles` (hot_scorer.py lines 75-140): score every
article into a fresh copy, then sort the copies by descending score. -/
noncomputable def score_articles (gravity : ℝ) (now : ℚ)
    (weights : List (String × ℝ)) (h : PyHeap) (refs : List ℕ) :
    PyHeap × List ℕ :=
  let pr := score_go gravity now weights h refs
  (pr.1, sort_by_hot pr.1 pr.2)

/-! ## Keyword extractor (`keyword_extractor.py`) -/

/-- Python `str.isupper()` restricted to ASCII (the code's keyword
alphabet): at least one cased character and no lower-case cased character. -/
def py_isupper (w : List Char) : Bool :=
  w.any (fun c => ('a' ≤ c && c ≤ 'z') || ('A' ≤ c && c ≤ 'Z')) &&
    w.all (fun c => !('a' ≤ c && c ≤ 'z'))

/-- Python `str.capitalize()`: first character upper-cased, the rest
lower-cased. -/
def py_capitalize : List Char → List Char
  | [] => []
  | c :: rest => Char.toUpper c :: rest.map Char.toLower

/-- One word of `KeywordExtractor._normalize_keyword` (keyword_extractor.py
lines 255-261): short all-caps tokens are kept as acronyms, other words are
capitalized. -/
def normalize_word (w : List Char) : List Char :=
  if py_isupper w && w.length ≤ 5 then w else py_capitalize w

/-- `KeywordExtractor._normalize_keyword` (keyword_extractor.py lines
239-263). -/
def normalize_keyword (kw : String) : String :=
  String.mk (List.intercalate [' '] ((split_ws kw.data).map normalize_word))

/-- The case-insensitive order-preserving de-duplication of
`extract_from_article` (keyword_extractor.py lines 82-88); `seen` collects
the lower-cased keywords already emitted. -/
def dedup_ci_go (seen : List String) : List String → List String
  | [] => []
  | kw :: rest =>
    if py_lower kw ∈ seen then dedup_ci_go seen rest
    else kw :: dedup_ci_go (seen ++ [py_lower kw]) rest

/-- `KeywordExtractor.extract_from_article` (keyword_extractor.py lines
46-94) after the external RAKE call. Modelled from the spec: the RAKE
ranking itself is external (`rake_nltk`), so the ranked-phrase list
`ranked` returned by `get_ranked_phrases()` is an explicit input; the
embedded part is the in-repository post-processing: take the top
`max_keywords`, drop phrases shorter than `min_length`, normalize casing,
de-duplicate case-insensitively and truncate again. -/
def extract_from_article (min_length max_keywords : ℕ)
    (ranked : List String) : List String :=
  let keywords := ranked.take max_keywords
  let normalized := (keywords.filter (fun kw => min_length ≤ kw.length)).map normalize_keyword
  (dedup_ci_go [] normalized).take max_keywords

/-- One step of `collections.Counter`: increment the count of `s`,
inserting it at the end on first occurrence (dict insertion order). -/
def counter_bump (acc : List (String × ℕ)) (s : String) : List (String × ℕ) :=
  if (assoc_get acc s).isSome then
    acc.map (fun p => if p.1 = s then (p.1, p.2 + 1) else p)
  else acc ++ [(s, 1)]

/-- `collections.Counter` over a list of strings, as an association list in
first-occurrence order. -/
def py_counter (l : List String) : List (String × ℕ) := l.foldl counter_bump []

/-- `KeywordExtractor.extract_from_articles` (keyword_extractor.py lines
96-135): gather every article's keywords, count frequencies of the
**lower-cased** keywords, and keep those with count at least
`min_frequency`. One ranked-phrase list per article is supplied (the RAKE
output for that article, see `extract_from_article`). -/
def extract_from_articles (min_length max_keywords : ℕ)
    (ranked_lists : List (List String)) (min_frequency : ℕ) :
    List (String × ℕ) :=
  let all_keywords := (ranked_lists.map (extract_from_article min_length max_keywords)).flatten
  (py_counter (all_keywords.map py_lower)).filter (fun p => min_frequency ≤ p.2)

/-- An article as read by `_find_articles_with_keyword` and the metadata it
returns. -/
structure KArticle where
  title : String
  text : String
  url : String
  source : String
deriving DecidableEq

/-- Python `needle in haystack` substring test. -/
def str_contains (haystack needle : String) : Bool :=
  decide (needle.data <:+: haystack.data)

/-- `KeywordExtractor._find_articles_with_keyword` (keyword_extractor.py
lines 181-215): first (up to) `limit` articles whose lower-cased title or
text contains the lower-cased keyword. -/
def find_articles_with_keyword (articles : List KArticle) (keyword : String)
    (limit : ℕ) : List (String × String × String) :=
  ((articles.filter (fun a =>
      str_contains (py_lower a.title) (py_lower keyword) ||
      str_contains (py_lower a.text) (py_lower keyword))).map
    (fun a => (a.title, a.url, a.source))).take limit

/-- A row of `get_top_keywords` output. -/
structure TopKw where
  keyword : String
  frequency : ℕ
  sample_articles : List (String × String × String)
deriving DecidableEq

/-- `KeywordExtractor.get_top_keywords` (keyword_extractor.py lines
137-179): sort the aggregated keyword frequencies descending (stable),
truncate to `top_n` and attach up to 3 sample articles per keyword. -/
def get_top_keywords (min_length max_keywords : ℕ) (articles : List KArticle)
    (ranked_lists : List (List String)) (top_n min_frequency : ℕ) :
    List TopKw :=
  let keyword_freq := extract_from_articles min_length max_keywords ranked_lists min_frequency
  let sorted := (stable_sort (fun a b => decide (b.2 < a.2)) keyword_freq).take top_n
  sorted.map (fun p => ⟨p.1, p.2, find_articles_with_keyword articles p.1 3⟩)

/-! ## Properties of the Jaccard similarity -/

theorem jacc_comm (A B : Finset String) : jacc A B = jacc B A := by
  rw [jacc, jacc, Finset.inter_comm, Finset.union_comm]

theorem jacc_nonneg (A B : Finset String) : 0 ≤ jacc A B := by
  exact div_nonneg (by positivity) (by positivity)

theorem jacc_le_one (A B : Finset String) : jacc A B ≤ 1 := by
  rw [jacc]
  rcases Nat.eq_zero_or_pos (A ∪ B).card with h | h
  · simp [h]
  · rw [div_le_one (by exact_mod_cast h)]
    exact_mod_cast Finset.card_le_card Finset.inter_subset_union

theorem jacc_self {A : Finset String} (h : A.Nonempty) : jacc A A = 1 := by
  rw [jacc, Finset.inter_self, Finset.union_self]
  exact div_self (by exact_mod_cast Finset.card_ne_zero_of_mem h.choose_spec)

theorem jacc_empty_left (B : Finset String) : jacc ∅ B = 0 := by
  simp [jacc]

/-- Cardinality of a subset of `U` as a sum of indicators over `U`. -/
theorem card_as_sum {X U : Finset String} (h : X ⊆ U) :
    X.card = ∑ x ∈ U, if x ∈ X then 1 else 0 := by
  rw [← Finset.card_filter]
  congr 1
  rw [Finset.filter_mem_eq_inter, Finset.inter_eq_right.mpr h]

/-- Counting inequality behind the Jaccard triangle inequality: pointwise
over `A ∪ B ∪ C`, each element contributes at least as much to the right
side. -/
theorem jacc_cover_card (A B C : Finset String) :
    (A ∪ B ∪ C).card + (A ∩ B).card + (B ∩ C).card ≤
      (A ∩ C).card + (A ∪ B).card + (B ∪ C).card := by
  classical
  set U : Finset String := A ∪ B ∪ C with hU
  have hAB : A ∪ B ⊆ U := Finset.union_subset
    (fun x hx => by simp [hU, Finset.mem_union, hx])
    (fun x hx => by simp [hU, Finset.mem_union, hx])
  have hBC : B ∪ C ⊆ U := Finset.union_subset
    (fun x hx => by simp [hU, Finset.mem_union, hx])
    (fun x hx => by simp [hU, Finset.mem_union, hx])
  have hACi : A ∩ C ⊆ U := fun x hx => by
    simp only [Finset.mem_inter] at hx
    simp [hU, Finset.mem_union, hx.1]
  have hABi : A ∩ B ⊆ U := fun x hx => by
    simp only [Finset.mem_inter] at hx
    simp [hU, Finset.mem_union, hx.1]
  have hBCi : B ∩ C ⊆ U := fun x hx => by
    simp only [Finset.mem_inter] at hx
    simp [hU, Finset.mem_union, hx.2]
  rw [card_as_sum hAB, card_as_sum hBC, card_as_sum hACi, card_as_sum hABi,
    card_as_sum hBCi, Finset.card_eq_sum_ones U]
  rw [← Finset.sum_add_distrib, ← Finset.sum_add_distrib, ← Finset.sum_add_distrib,
    ← Finset.sum_add_distrib]
  refine Finset.sum_le_sum (fun x hx => ?_)
  have hx' : x ∈ A ∨ x ∈ B ∨ x ∈ C := by
    simpa [hU, Finset.mem_union, or_assoc] using hx
  by_cases hA : x ∈ A <;> by_cases hB : x ∈ B <;> by_cases hC : x ∈ C <;>
    simp [Finset.mem_inter, Finset.mem_union, hA, hB, hC] <;> tauto

/-- Shifting a subunit fraction to the common denominator `n`. -/
theorem frac_shift {p q n : ℚ} (hp : 0 ≤ p) (hpq : p ≤ q) (hq : 0 < q)
    (hqn : q ≤ n) : p / q ≤ (p + (n - q)) / n := by
  have hn : 0 < n := lt_of_lt_of_le hq hqn
  rw [div_le_div_iff hq hn]
  nlinarith

/-- Triangle inequality for the Jaccard distance `1 - jacc`, in similarity
form. -/
theorem jacc_triangle (A B C : Finset String) :
    jacc A B + jacc B C ≤ 1 + jacc A C := by
  classical
  by_cases hAB0 : (A ∪ B).card = 0
  · have : jacc A B = 0 := by rw [jacc, hAB0]; simp
    rw [this, zero_add]
    exact le_trans (jacc_le_one B C) (le_add_of_nonneg_right (jacc_nonneg A C))
  by_cases hBC0 : (B ∪ C).card = 0
  · have : jacc B C = 0 := by rw [jacc, hBC0]; simp
    rw [this, add_zero]
    exact le_trans (jacc_le_one A B) (le_add_of_nonneg_right (jacc_nonneg A C))
  by_cases hAC0 : (A ∪ C).card = 0
  · have hA : A = ∅ := by
      have := Finset.card_eq_zero.mp hAC0
      exact Finset.subset_empty.mp (this ▸ Finset.subset_union_left)
    rw [hA, jacc_empty_left, zero_add]
    exact le_trans (jacc_le_one B C) (le_add_of_nonneg_right (jacc_nonneg ∅ C))
  -- main case: all three union cardinalities are positive
  set U : Finset String := A ∪ B ∪ C with hU
  have hABU : A ∪ B ⊆ U := Finset.union_subset
    (le_trans Finset.subset_union_left Finset.subset_union_left)
    (le_trans Finset.subset_union_right Finset.subset_union_left)
  have hBCU : B ∪ C ⊆ U := Finset.union_subset
    (le_trans Finset.subset_union_right Finset.subset_union_left)
    Finset.subset_union_right
  have hACU : A ∪ C ⊆ U := Finset.union_subset
    (le_trans Finset.subset_union_left Finset.subset_union_left)
    Finset.subset_union_right
  have hABq : (0 : ℚ) < ((A ∪ B).card : ℚ) := by
    exact_mod_cast Nat.pos_of_ne_zero hAB0
  have hBCq : (0 : ℚ) < ((B ∪ C).card : ℚ) := by
    exact_mod_cast Nat.pos_of_ne_zero hBC0
  have hACq : (0 : ℚ) < ((A ∪ C).card : ℚ) := by
    exact_mod_cast Nat.pos_of_ne_zero hAC0
  have hnq : (0 : ℚ) < (U.card : ℚ) :=
    lt_of_lt_of_le hABq (by exact_mod_cast Finset.card_le_card hABU)
  have h1 : jacc A B ≤
      (((A ∩ B).card : ℚ) + ((U.card : ℚ) - ((A ∪ B).card : ℚ))) / (U.card : ℚ) := by
    refine frac_shift (by positivity) ?_ hABq ?_
    · exact_mod_cast Finset.card_le_card Finset.inter_subset_union
    · exact_mod_cast Finset.card_le_card hABU
  have h2 : jacc B C ≤
      (((B ∩ C).card : ℚ) + ((U.card : ℚ) - ((B ∪ C).card : ℚ))) / (U.card : ℚ) := by
    refine frac_shift (by positivity) ?_ hBCq ?_
    · exact_mod_cast Finset.card_le_card Finset.inter_subset_union
    · exact_mod_cast Finset.card_le_card hBCU
  have h3 : ((A ∩ C).card : ℚ) / (U.card : ℚ) ≤ jacc A C := by
    rw [jacc]
    refine div_le_div_of_nonneg_left (by positivity) hACq ?_
    exact_mod_cast Finset.card_le_card hACU
  have hcover := jacc_cover_card A B C
  have hcoverq : ((U.card : ℚ) + ((A ∩ B).card : ℚ) + ((B ∩ C).card : ℚ)) ≤
      ((A ∩ C).card : ℚ) + ((A ∪ B).card : ℚ) + ((B ∪ C).card : ℚ) := by
    exact_mod_cast hcover
  have hone : (1 : ℚ) + ((A ∩ C).card : ℚ) / (U.card : ℚ) =
      ((U.card : ℚ) + ((A ∩ C).card : ℚ)) / (U.card : ℚ) := by
    field_simp
  have hkey : (((A ∩ B).card : ℚ) + ((U.card : ℚ) - ((A ∪ B).card : ℚ))) / (U.card : ℚ) +
      (((B ∩ C).card : ℚ) + ((U.card : ℚ) - ((B ∪ C).card : ℚ))) / (U.card : ℚ) ≤
      1 + ((A ∩ C).card : ℚ) / (U.card : ℚ) := by
    rw [div_add_div_same, hone, div_le_div_iff_of_pos_right hnq]
    linarith
  linarith

/-! ## Invariants of the deduplication loop -/

theorem mem_enumFrom_d {α : Type} {p : ℕ × α} {n : ℕ} {l : List α}
    (h : p ∈ List.enumFrom n l) : n ≤ p.1 ∧ p.2 ∈ l := by
  induction l generalizing n with
  | nil => simp [List.enumFrom] at h
  | cons a rest ih =>
    simp only [List.enumFrom, List.mem_cons] at h
    rcases h with h | h
    · subst h
      exact ⟨le_refl _, by simp⟩
    · obtain ⟨h1, h2⟩ := ih h
      exact ⟨by omega, by simp [h2]⟩

theorem pairwise_fst_lt_enumFrom {α : Type} (n : ℕ) (l : List α) :
    List.Pairwise (fun p q => p.1 < q.1) (List.enumFrom n l) := by
  induction l generalizing n with
  | nil => simp [List.enumFrom]
  | cons a rest ih =>
    simp only [List.enumFrom]
    refine List.Pairwise.cons (fun q hq => ?_) (ih (n + 1))
    have := (mem_enumFrom_d hq).1
    omega

theorem pairwise_snd_enumFrom {α : Type} {r : α → α → Prop} {l : List α}
    (n : ℕ) (h : List.Pairwise r l) :
    List.Pairwise (fun p q => r p.2 q.2) (List.enumFrom n l) := by
  induction h generalizing n with
  | nil => simp [List.enumFrom]
  | @cons a rest ha _ ih =>
    simp only [List.enumFrom]
    exact List.Pairwise.cons
      (fun q hq => ha q.2 (mem_enumFrom_d hq).2) (ih (n + 1))

/-- The kept pairs form a subsequence of the processed list. -/
theorem dedup_go_sublist (θ : ℚ) (sigs : List (Finset String))
    (seen : List String) (l : List (ℕ × DArticle)) :
    (dedup_go θ sigs seen l).1.Sublist l := by
  induction l generalizing sigs seen with
  | nil => simp [dedup_go]
  | cons hd rest ih =>
    obtain ⟨i, a⟩ := hd
    simp only [dedup_go]
    split_ifs with h1 h2 h3
    · exact (ih sigs seen).trans (List.sublist_cons_self _ _)
    · exact (ih sigs seen).trans (List.sublist_cons_self _ _)
    · exact List.Sublist.cons₂ _ (ih _ _)
    · exact List.Sublist.cons₂ _ (ih _ _)

/-- The final index contents: the initial signatures followed by the
signatures of the kept articles, in order. -/
theorem dedup_go_sigs (θ : ℚ) (sigs : List (Finset String))
    (seen : List String) (l : List (ℕ × DArticle)) :
    (dedup_go θ sigs seen l).2 =
      sigs ++ (dedup_go θ sigs seen l).1.map (fun p => create_minhash p.2) := by
  induction l generalizing sigs seen with
  | nil => simp [dedup_go]
  | cons hd rest ih =>
    obtain ⟨i, a⟩ := hd
    simp only [dedup_go]
    split_ifs with h1 h2 h3
    · exact ih sigs seen
    · exact ih sigs seen
    · simp only [List.map_cons]
      rw [ih]
      simp
    · simp only [List.map_cons]
      rw [ih]
      simp

/-- Every kept article is dissimilar (below threshold) to every signature
already present when the run started. -/
theorem dedup_go_kept_not_sim (θ : ℚ) (sigs : List (Finset String))
    (seen : List String) (l : List (ℕ × DArticle)) :
    ∀ p ∈ (dedup_go θ sigs seen l).1, ∀ s ∈ sigs,
      jacc (create_minhash p.2) s < θ := by
  induction l generalizing sigs seen with
  | nil => simp [dedup_go]
  | cons hd rest ih =>
    obtain ⟨i, a⟩ := hd
    simp only [dedup_go]
    have hquery : ¬(sigs.any fun s => decide (θ ≤ jacc (create_minhash a) s)) = true →
        ∀ s ∈ sigs, jacc (create_minhash a) s < θ := by
      intro h2 s hs
      refine lt_of_not_le (fun hle => h2 ?_)
      exact List.any_eq_true.mpr ⟨s, hs, by simpa using hle⟩
    split_ifs with h1 h2 h3
    · exact ih sigs seen
    · exact ih sigs seen
    · intro p hp s hs
      simp only [List.mem_cons] at hp
      rcases hp with hp | hp
      · subst hp
        exact hquery h2 s hs
      · exact ih _ _ p hp s (List.mem_append_left _ hs)
    · intro p hp s hs
      simp only [List.mem_cons] at hp
      rcases hp with hp | hp
      · subst hp
        exact hquery h2 s hs
      · exact ih _ _ p hp s (List.mem_append_left _ hs)

/-- The kept articles are pairwise dissimilar (below threshold). -/
theorem dedup_go_pairwise (θ : ℚ) (sigs : List (Finset String))
    (seen : List String) (l : List (ℕ × DArticle)) :
    List.Pairwise
      (fun p q => jacc (create_minhash p.2) (create_minhash q.2) < θ)
      (dedup_go θ sigs seen l).1 := by
  induction l generalizing sigs seen with
  | nil => simp [dedup_go]
  | cons hd rest ih =>
    obtain ⟨i, a⟩ := hd
    simp only [dedup_go]
    split_ifs with h1 h2 h3
    · exact ih sigs seen
    · exact ih sigs seen
    · refine List.Pairwise.cons (fun q hq => ?_) (ih _ _)
      have := dedup_go_kept_not_sim θ (sigs ++ [create_minhash a])
        (seen ++ [a.url]) rest q hq
        (create_minhash a) (List.mem_append_right _ (by simp))
      rw [jacc_comm]
      exact this
    · refine List.Pairwise.cons (fun q hq => ?_) (ih _ _)
      have := dedup_go_kept_not_sim θ (sigs ++ [create_minhash a])
        seen rest q hq
        (create_minhash a) (List.mem_append_right _ (by simp))
      rw [jacc_comm]
      exact this

/-- When no processed article can be dropped by the URL pre-filter (fresh
`seen` relative to the list, pairwise-distinct non-empty URLs), every
dropped article was blocked by a similar signature: one already in the
index at the start of the run, or that of a kept article with a smaller
index. -/
theorem dedup_go_dropped (θ : ℚ) (sigs : List (Finset String))
    (seen : List String) (l : List (ℕ × DArticle))
    (hfst : List.Pairwise (fun p q => p.1 < q.1) l)
    (hseen : ∀ p ∈ l, p.2.url ≠ "" → p.2.url ∉ seen)
    (hurls : List.Pairwise (fun p q => p.2.url = q.2.url → p.2.url = "") l) :
    ∀ p ∈ l, p ∉ (dedup_go θ sigs seen l).1 →
      (∃ s ∈ sigs, θ ≤ jacc (create_minhash p.2) s) ∨
      (∃ q ∈ (dedup_go θ sigs seen l).1, q.1 < p.1 ∧
        θ ≤ jacc (create_minhash p.2) (create_minhash q.2)) := by
  induction l generalizing sigs seen with
  | nil => simp
  | cons hd rest ih =>
    obtain ⟨i, a⟩ := hd
    have hfst' := List.pairwise_cons.mp hfst
    have hurls' := List.pairwise_cons.mp hurls
    simp only [dedup_go]
    split_ifs with h1 h2 h3
    · -- URL drop of the head is impossible under `hseen`
      exact absurd h1.2 (hseen (i, a) (by simp) h1.1)
    · -- head dropped by a similarity match in `sigs`
      intro p hp hpk
      simp only [List.mem_cons] at hp
      rcases hp with hp | hp
      · subst hp
        left
        obtain ⟨s, hs, hdec⟩ := List.any_eq_true.mp h2
        exact ⟨s, hs, by simpa using hdec⟩
      · exact ih sigs seen hfst'.2 (fun q hq => hseen q (by simp [hq]))
          hurls'.2 p hp hpk
    · -- head kept, non-empty URL recorded
      intro p hp hpk
      simp only [List.mem_cons] at hp hpk
      push_neg at hpk
      rcases hp with hp | hp
      · exact absurd rfl (hp ▸ hpk.1)
      · have hseen' : ∀ q ∈ rest, q.2.url ≠ "" → q.2.url ∉ seen ++ [a.url] := by
          intro q hq hqu
          simp only [List.mem_append, List.mem_singleton]
          push_neg
          refine ⟨hseen q (by simp [hq]) hqu, fun heq => ?_⟩
          exact hqu (hurls'.1 q hq heq.symm ▸ heq)
        have := ih (sigs ++ [create_minhash a]) (seen ++ [a.url])
          hfst'.2 hseen' hurls'.2 p hp hpk.2
        rcases this with ⟨s, hs, hsim⟩ | ⟨q, hq, hqi, hsim⟩
        · simp only [List.mem_append, List.mem_singleton] at hs
          rcases hs with hs | hs
          · exact Or.inl ⟨s, hs, hsim⟩
          · refine Or.inr ⟨(i, a), by simp, hfst'.1 p hp, ?_⟩
            rw [← hs]
            exact hsim
        · exact Or.inr ⟨q, by simp [hq], hqi, hsim⟩
    · -- head kept, empty URL
      intro p hp hpk
      simp only [List.mem_cons] at hp hpk
      push_neg at hpk
      rcases hp with hp | hp
      · exact absurd rfl (hp ▸ hpk.1)
      · have := ih (sigs ++ [create_minhash a]) seen
          hfst'.2 (fun q hq => hseen q (by simp [hq])) hurls'.2 p hp hpk.2
        rcases this with ⟨s, hs, hsim⟩ | ⟨q, hq, hqi, hsim⟩
        · simp only [List.mem_append, List.mem_singleton] at hs
          rcases hs with hs | hs
          · exact Or.inl ⟨s, hs, hsim⟩
          · refine Or.inr ⟨(i, a), by simp, hfst'.1 p hp, ?_⟩
            rw [← hs]
            exact hsim
        · exact Or.inr ⟨q, by simp [hq], hqi, hsim⟩

/-- If every article of the batch is similar to some signature already in
the index, the run keeps nothing and the index is unchanged. -/
theorem dedup_go_all_blocked (θ : ℚ) (sigs : List (Finset String))
    (seen : List String) (l : List (ℕ × DArticle))
    (h : ∀ p ∈ l, ∃ s ∈ sigs, θ ≤ jacc (create_minhash p.2) s) :
    dedup_go θ sigs seen l = ([], sigs) := by
  induction l generalizing seen with
  | nil => simp [dedup_go]
  | cons hd rest ih =>
    obtain ⟨i, a⟩ := hd
    simp only [dedup_go]
    have hany : (sigs.any fun s => decide (θ ≤ jacc (create_minhash a) s)) = true := by
      obtain ⟨s, hs, hsim⟩ := h (i, a) (by simp)
      exact List.any_eq_true.mpr ⟨s, hs, by simpa using hsim⟩
    split_ifs with h1
    · exact ih seen (fun p hp => h p (by simp [hp]))
    · exact ih seen (fun p hp => h p (by simp [hp]))

/-- An article with an empty signature is only ever dropped by the URL
pre-filter: it is kept unless its non-empty URL is in the initial seen set
or matches the URL of a kept article with a smaller index. -/
theorem dedup_go_empty_sig (θ : ℚ) (sigs : List (Finset String))
    (seen : List String) (l : List (ℕ × DArticle))
    (hθ : 0 < θ)
    (hfst : List.Pairwise (fun p q => p.1 < q.1) l) :
    ∀ p ∈ l, create_minhash p.2 = ∅ →
      p ∈ (dedup_go θ sigs seen l).1 ∨
      (p.2.url ≠ "" ∧ (p.2.url ∈ seen ∨
        ∃ q ∈ (dedup_go θ sigs seen l).1, q.1 < p.1 ∧ q.2.url = p.2.url)) := by
  induction l generalizing sigs seen with
  | nil => simp
  | cons hd rest ih =>
    obtain ⟨i, a⟩ := hd
    have hfst' := List.pairwise_cons.mp hfst
    simp only [dedup_go]
    split_ifs with h1 h2 h3
    · -- head dropped by URL
      intro p hp hsig
      simp only [List.mem_cons] at hp
      rcases hp with hp | hp
      · subst hp
        exact Or.inr ⟨h1.1, Or.inl h1.2⟩
      · exact ih sigs seen hfst'.2 p hp hsig
    · -- head dropped by similarity
      intro p hp hsig
      simp only [List.mem_cons] at hp
      rcases hp with hp | hp
      · -- impossible: an empty signature matches nothing
        subst hp
        obtain ⟨s, _, hdec⟩ := List.any_eq_true.mp h2
        have : θ ≤ jacc (create_minhash a) s := by simpa using hdec
        rw [show create_minhash a = ∅ from hsig, jacc_empty_left] at this
        exact absurd (lt_of_lt_of_le hθ this) (lt_irrefl 0)
      · exact ih sigs seen hfst'.2 p hp hsig
    · -- head kept, non-empty URL recorded
      intro p hp hsig
      simp only [List.mem_cons] at hp
      rcases hp with hp | hp
      · exact Or.inl (by simp [hp])
      · rcases ih (sigs ++ [create_minhash a]) (seen ++ [a.url])
          hfst'.2 p hp hsig with hk | ⟨hu, hrest⟩
        · exact Or.inl (by simp [hk])
        · refine Or.inr ⟨hu, ?_⟩
          rcases hrest with hseen' | ⟨q, hq, hqi, hqu⟩
          · simp only [List.mem_append, List.mem_singleton] at hseen'
            rcases hseen' with hseen' | hseen'
            · exact Or.inl hseen'
            · exact Or.inr ⟨(i, a), by simp, hfst'.1 p hp, hseen'.symm⟩
          · exact Or.inr ⟨q, by simp [hq], hqi, hqu⟩
    · -- head kept, empty URL
      intro p hp hsig
      simp only [List.mem_cons] at hp
      rcases hp with hp | hp
      · exact Or.inl (by simp [hp])
      · rcases ih (sigs ++ [create_minhash a]) seen
          hfst'.2 p hp hsig with hk | ⟨hu, hrest⟩
        · exact Or.inl (by simp [hk])
        · refine Or.inr ⟨hu, ?_⟩
          rcases hrest with hseen' | ⟨q, hq, hqi, hqu⟩
          · exact Or.inl hseen'
          · exact Or.inr ⟨q, by simp [hq], hqi, hqu⟩

/-- `deduplicate_articles` in closed form: the `articles == []` early return
agrees with the general run. -/
theorem deduplicate_articles_def (inst : DedupInst) (arts : List DArticle) :
    deduplicate_articles inst arts =
      ({ inst with sigs := (dedup_go inst.threshold inst.sigs [] arts.enum).2 },
       ((dedup_go inst.threshold inst.sigs [] arts.enum).1).map Prod.snd) := by
  cases arts with
  | nil => simp [deduplicate_articles, dedup_go, List.enum]
  | cons a rest => rfl

/-- The signature of an article depends only on its title and text. -/
theorem create_minhash_congr {a b : DArticle} (ht : a.title = b.title)
    (hx : a.text = b.text) : create_minhash a = create_minhash b := by
  rw [create_minhash, create_minhash, ht, hx]

/-- Members of kept pairs are pairwise dissimilar, in symmetric form. -/
theorem dedup_go_pairwise_both (θ : ℚ) (sigs : List (Finset String))
    (seen : List String) (l : List (ℕ × DArticle))
    {p q : ℕ × DArticle} (hp : p ∈ (dedup_go θ sigs seen l).1)
    (hq : q ∈ (dedup_go θ sigs seen l).1) (hne : p ≠ q) :
    jacc (create_minhash p.2) (create_minhash q.2) < θ := by
  refine (dedup_go_pairwise θ sigs seen l).forall ?_ hp hq hne
  intro x y hxy
  rw [jacc_comm]
  exact hxy

theorem enum_fst_lt (arts : List DArticle) :
    List.Pairwise (fun p q => p.1 < q.1) arts.enum :=
  pairwise_fst_lt_enumFrom 0 arts

theorem enum_urls {arts : List DArticle}
    (h : List.Pairwise (fun x y => x.url = y.url → x.url = "") arts) :
    List.Pairwise (fun p q => p.2.url = q.2.url → p.2.url = "") arts.enum :=
  pairwise_snd_enumFrom 0 h

/-! ## Claim C1 -/

/-- Claim C1, counterexample. In the batch below, articles 1 and 2 have
identical title and text and distinct URLs, yet the deduplicator (threshold
0.5) keeps the **later** one: article 1 shares its URL with the kept
article 0 and is removed by the URL pre-filter before its signature is ever
indexed, so article 2 survives. This refutes "within every group of
near-duplicates the retained article is the first-seen one; two articles
with identical title+text and distinct URLs yield exactly one survivor, the
earlier one". -/
theorem dedup_c1_cex :
    (⟨"u", "one two three four", ""⟩ : DArticle).title =
        (⟨"v", "one two three four", ""⟩ : DArticle).title ∧
    (⟨"u", "one two three four", ""⟩ : DArticle).text =
        (⟨"v", "one two three four", ""⟩ : DArticle).text ∧
    (⟨"u", "one two three four", ""⟩ : DArticle).url ≠
        (⟨"v", "one two three four", ""⟩ : DArticle).url ∧
    deduplicate
      [⟨"u", "alpha beta gamma delta", ""⟩,
       ⟨"u", "one two three four", ""⟩,
       ⟨"v", "one two three four", ""⟩] (1/2) =
      [⟨"u", "alpha beta gamma delta", ""⟩,
       ⟨"v", "one two three four", ""⟩] := by
  refine ⟨rfl, rfl, by decide, ?_⟩
  with_unfolding_all decide

/-- Claim C1 (amended): `deduplicate_articles` returns an order-preserving
subsequence of its input, and **provided no two articles of the batch share
a non-empty URL** the first-seen retention policy holds: (i) of two
articles with identical title+text (and a non-empty shingle set) the later
one is never retained, and (ii) every dropped article merges into a
retained article of smaller input index whose signature meets the
threshold. Without the URL proviso the retained article need not be the
first-seen one (see the counterexample). -/
theorem dedup_c1_amended :
    (∀ (inst : DedupInst) (arts : List DArticle),
      ((deduplicate_articles inst arts).2).Sublist arts) ∧
    (∀ (θ : ℚ) (arts : List DArticle) (i j : ℕ) (ai aj : DArticle),
      0 < θ → θ ≤ 1 →
      List.Pairwise (fun x y => x.url = y.url → x.url = "") arts →
      arts[i]? = some ai → arts[j]? = some aj → i < j →
      ai.title = aj.title → ai.text = aj.text → create_minhash ai ≠ ∅ →
      (j, aj) ∉ (dedup_go θ [] [] arts.enum).1) ∧
    (∀ (θ : ℚ) (arts : List DArticle) (p : ℕ × DArticle),
      List.Pairwise (fun x y => x.url = y.url → x.url = "") arts →
      p ∈ arts.enum → p ∉ (dedup_go θ [] [] arts.enum).1 →
      ∃ q ∈ (dedup_go θ [] [] arts.enum).1, q.1 < p.1 ∧
        θ ≤ jacc (create_minhash p.2) (create_minhash q.2)) := by
  refine ⟨?_, ?_, ?_⟩
  · intro inst arts
    rw [deduplicate_articles_def]
    have h1 : ((dedup_go inst.threshold inst.sigs [] arts.enum).1.map Prod.snd).Sublist
        (arts.enum.map Prod.snd) :=
      List.Sublist.map Prod.snd (dedup_go_sublist _ _ _ _)
    rwa [List.enum_map_snd] at h1
  · intro θ arts i j ai aj hθ hθ1 hurls hgi hgj hij htitle htext hsig hjk
    have hmh : create_minhash ai = create_minhash aj :=
      create_minhash_congr htitle htext
    have hik : (i, ai) ∈ arts.enum := List.mk_mem_enum_iff_getElem?.mpr hgi
    by_cases hk : (i, ai) ∈ (dedup_go θ [] [] arts.enum).1
    · have hne : (i, ai) ≠ (j, aj) := by
        intro h
        exact absurd (congrArg Prod.fst h) (by simp; omega)
      have hlt := dedup_go_pairwise_both θ [] [] arts.enum hk hjk hne
      rw [show ((i, ai) : ℕ × DArticle).2 = ai from rfl,
        show ((j, aj) : ℕ × DArticle).2 = aj from rfl, hmh] at hlt
      rw [jacc_self (Finset.nonempty_iff_ne_empty.mpr (hmh ▸ hsig))] at hlt
      exact absurd (lt_of_le_of_lt hθ1 hlt) (lt_irrefl θ)
    · have hdrop := dedup_go_dropped θ [] [] arts.enum (enum_fst_lt arts)
        (by simp) (enum_urls hurls) (i, ai) hik hk
      rcases hdrop with ⟨s, hs, _⟩ | ⟨q, hq, hqi, hsim⟩
      · simp at hs
      · have hne : q ≠ (j, aj) := by
          intro h
          rw [h] at hqi
          simp at hqi
          omega
        have hlt := dedup_go_pairwise_both θ [] [] arts.enum hq hjk hne
        rw [jacc_comm] at hlt
        rw [show ((i, ai) : ℕ × DArticle).2 = ai from rfl, hmh] at hsim
        exact absurd (lt_of_le_of_lt hsim hlt) (lt_irrefl _)
  · intro θ arts p hurls hp hnk
    have hdrop := dedup_go_dropped θ [] [] arts.enum (enum_fst_lt arts)
      (by simp) (enum_urls hurls) p hp hnk
    rcases hdrop with ⟨s, hs, _⟩ | h
    · simp at hs
    · exact h

/-- Witness for `dedup_c1_amended`: a concrete two-article batch with
identical content and distinct URLs — the later article (index 1) is not
retained, and the output is a subsequence of the input. -/
theorem dedup_c1_amended_witness :
    (((deduplicate_articles (mk_deduplicator (1/2) 128)
        [⟨"ua", "w1 w2 w3", ""⟩, ⟨"ub", "w1 w2 w3", ""⟩]).2).Sublist
      [⟨"ua", "w1 w2 w3", ""⟩, ⟨"ub", "w1 w2 w3", ""⟩]) ∧
    (1, (⟨"ub", "w1 w2 w3", ""⟩ : DArticle)) ∉
      (dedup_go (1/2) [] []
        ([⟨"ua", "w1 w2 w3", ""⟩, ⟨"ub", "w1 w2 w3", ""⟩] :
          List DArticle).enum).1 := by
  constructor
  · exact dedup_c1_amended.1 _ _
  · exact dedup_c1_amended.2.1 (1/2) _ 0 1 _ _ (by norm_num) (by norm_num)
      (by decide) rfl rfl (by norm_num) rfl rfl
      (by with_unfolding_all decide)

/-! ## Claim C2 -/

/-- Claim C2: an article whose title and text are both empty has an empty
shingle set, and its signature matches nothing (for any positive
threshold, over any pre-existing index state), so the deduplicator never
drops it by content: it is retained unless its non-empty URL equals the URL
of a retained article of smaller index in the same run. In particular two
all-empty articles with distinct non-empty URLs are both kept. -/
theorem dedup_c2 (θ : ℚ) (sigs₀ : List (Finset String))
    (arts : List DArticle) (i : ℕ) (a : DArticle)
    (hθ : 0 < θ) (hi : arts[i]? = some a)
    (ht : a.title = "") (hx : a.text = "") :
    (i, a) ∈ (dedup_go θ sigs₀ [] arts.enum).1 ∨
    (a.url ≠ "" ∧ ∃ q ∈ (dedup_go θ sigs₀ [] arts.enum).1,
      q.1 < i ∧ q.2.url = a.url) := by
  have hsig : create_minhash a = ∅ := by
    have : a = ⟨a.url, "", ""⟩ := by
      cases a
      simp_all
    rw [this]
    rw [show create_minhash ⟨a.url, "", ""⟩ =
      create_shingles (clean_text ("" ++ " " ++ "")) 3 from rfl]
    decide
  have hmem : (i, a) ∈ arts.enum := List.mk_mem_enum_iff_getElem?.mpr hi
  have := dedup_go_empty_sig θ sigs₀ [] arts.enum hθ (enum_fst_lt arts)
    (i, a) hmem hsig
  rcases this with hk | ⟨hu, hrest⟩
  · exact Or.inl hk
  · rcases hrest with habs | h
    · simp at habs
    · exact Or.inr ⟨hu, h⟩

/-- Witness for `dedup_c2`: a batch of two articles with empty title and
text and distinct non-empty URLs; the second one (index 1) is kept or
URL-collides with an earlier kept article — and by evaluation the URL
collision branch is impossible here, both are kept. -/
theorem dedup_c2_witness :
    ((0 : ℚ) < 1/2 ∧
      ([⟨"u1", "", ""⟩, ⟨"u2", "", ""⟩] : List DArticle)[1]? =
        some ⟨"u2", "", ""⟩) ∧
    ((1, (⟨"u2", "", ""⟩ : DArticle)) ∈
      (dedup_go (1/2) [] []
        ([⟨"u1", "", ""⟩, ⟨"u2", "", ""⟩] : List DArticle).enum).1 ∨
    ((⟨"u2", "", ""⟩ : DArticle).url ≠ "" ∧
      ∃ q ∈ (dedup_go (1/2) [] []
        ([⟨"u1", "", ""⟩, ⟨"u2", "", ""⟩] : List DArticle).enum).1,
        q.1 < 1 ∧ q.2.url = (⟨"u2", "", ""⟩ : DArticle).url)) :=
  ⟨⟨by norm_num, rfl⟩,
    dedup_c2 (1/2) [] [⟨"u1", "", ""⟩, ⟨"u2", "", ""⟩] 1 ⟨"u2", "", ""⟩
      (by norm_num) rfl rfl rfl⟩

/-! ## Claim C10 -/

/-- Claim C10, counterexample. The LSH index does persist across calls, but
the second call does **not** always return the empty list: an article with
empty title and text (empty signature) matches nothing — not even its own
signature inserted by the first call — so it is returned again by the
second call. -/
theorem dedup_c10_cex :
    (deduplicate_articles (mk_deduplicator (1/2) 128)
        [⟨"u", "", ""⟩]).2 = [⟨"u", "", ""⟩] ∧
    (deduplicate_articles
        (deduplicate_articles (mk_deduplicator (1/2) 128)
          [⟨"u", "", ""⟩]).1
        [⟨"u", "", ""⟩]).2 = [⟨"u", "", ""⟩] ∧
    (deduplicate_articles
        (deduplicate_articles (mk_deduplicator (1/2) 128)
          [⟨"u", "", ""⟩]).1
        [⟨"u", "", ""⟩]).2 ≠ [] := by
  refine ⟨?_, ?_, ?_⟩ <;> with_unfolding_all decide

/-- Claim C10 (amended): the LSH index lives on the instance and
`deduplicate_articles` never clears it; only `reset` does. Consequently,
for a batch in which every article has a non-empty shingle set and no two
articles share a non-empty URL, a second identical call on the updated
instance returns the empty list: every article's signature matches a
signature inserted (or matched) during the first call. `reset` restores
the freshly-initialized instance. -/
theorem dedup_c10_amended (θ : ℚ) (np : ℕ) (arts : List DArticle)
    (hθ1 : θ ≤ 1)
    (hsig : ∀ a ∈ arts, create_minhash a ≠ ∅)
    (hurls : List.Pairwise (fun x y => x.url = y.url → x.url = "") arts) :
    (deduplicate_articles
      (deduplicate_articles (mk_deduplicator θ np) arts).1 arts).2 = [] ∧
    dedup_reset (deduplicate_articles (mk_deduplicator θ np) arts).1 =
      mk_deduplicator θ np := by
  have hsigs1 : (deduplicate_articles (mk_deduplicator θ np) arts).1.sigs =
      (dedup_go θ [] [] arts.enum).2 := by
    rw [deduplicate_articles_def]
    rfl
  have hθeq : (deduplicate_articles (mk_deduplicator θ np) arts).1.threshold = θ := by
    rw [deduplicate_articles_def]
    rfl
  constructor
  · rw [deduplicate_articles_def]
    simp only [hθeq, hsigs1]
    have hall : ∀ p ∈ arts.enum, ∃ s ∈ (dedup_go θ [] [] arts.enum).2,
        θ ≤ jacc (create_minhash p.2) s := by
      intro p hp
      by_cases hk : p ∈ (dedup_go θ [] [] arts.enum).1
      · refine ⟨create_minhash p.2, ?_, ?_⟩
        · rw [dedup_go_sigs]
          exact List.mem_append_right _ (List.mem_map_of_mem _ hk)
        · rw [jacc_self (Finset.nonempty_iff_ne_empty.mpr
            (hsig p.2 (mem_enumFrom_d hp).2))]
          exact hθ1
      · have := dedup_go_dropped θ [] [] arts.enum (enum_fst_lt arts)
          (by simp) (enum_urls hurls) p hp hk
        rcases this with ⟨s, hs, _⟩ | ⟨q, hq, _, hsim⟩
        · simp at hs
        · refine ⟨create_minhash q.2, ?_, hsim⟩
          rw [dedup_go_sigs]
          exact List.mem_append_right _ (List.mem_map_of_mem _ hq)
    rw [dedup_go_all_blocked θ _ [] arts.enum hall]
    simp
  · rw [deduplicate_articles_def]
    rfl

/-- Witness for `dedup_c10_amended`: a two-article batch with distinct
URLs and non-empty signatures — deduplicating it twice on the same
instance returns the empty list the second time, and `reset` restores the
fresh instance. -/
theorem dedup_c10_amended_witness :
    (deduplicate_articles
      (deduplicate_articles (mk_deduplicator (1/2) 128)
        [⟨"u1", "w1 w2 w3", ""⟩, ⟨"u2", "z1 z2 z3", ""⟩]).1
      [⟨"u1", "w1 w2 w3", ""⟩, ⟨"u2", "z1 z2 z3", ""⟩]).2 = [] ∧
    dedup_reset (deduplicate_articles (mk_deduplicator (1/2) 128)
        [⟨"u1", "w1 w2 w3", ""⟩, ⟨"u2", "z1 z2 z3", ""⟩]).1 =
      mk_deduplicator (1/2) 128 :=
  dedup_c10_amended (1/2) 128
    [⟨"u1", "w1 w2 w3", ""⟩, ⟨"u2", "z1 z2 z3", ""⟩]
    (by norm_num)
    (by intro a ha; fin_cases ha <;> with_unfolding_all decide)
    (by decide)

/-! ## Claim C4 -/

/-- Claim C4, counterexample. Threshold monotonicity fails because the URL
pre-filter only records the URLs of **kept** articles. In the batch below,
at threshold 0.9 article 1 is kept (similarity 7/23 to article 0), so
article 2 (same URL) is URL-dropped and article 3 is content-dropped
(similarity 9/10 to article 1): two survivors. At threshold 0.3 article 1
is content-dropped (7/23 ≥ 3/10), which un-blocks article 2, and article 3
is dissimilar to everything kept: three survivors. So
`deduplicate(threshold=0.3)` returns **more** unique articles than
`deduplicate(threshold=0.9)`. -/
theorem dedup_c4_cex :
    (deduplicate
      [⟨"u1", "x1 x2 x3 x4 t13 t14 t15 t16 t17 t18 t19 t20 t21", ""⟩,
       ⟨"w", "t01 t02 t03 t04 t05 t06 t07 t08 t09 t10 t11 t12 t13 t14 t15 t16 t17 t18 t19 t20 t21", ""⟩,
       ⟨"w", "y1 y2 y3 y4 y5", ""⟩,
       ⟨"v", "t01 t02 t03 t04 t05 t06 t07 t08 t09 t10 t11 t12 t13 t14 t15 t16 t17 t18 t19 t20 u21", ""⟩]
      (3/10)).length = 3 ∧
    (deduplicate
      [⟨"u1", "x1 x2 x3 x4 t13 t14 t15 t16 t17 t18 t19 t20 t21", ""⟩,
       ⟨"w", "t01 t02 t03 t04 t05 t06 t07 t08 t09 t10 t11 t12 t13 t14 t15 t16 t17 t18 t19 t20 t21", ""⟩,
       ⟨"w", "y1 y2 y3 y4 y5", ""⟩,
       ⟨"v", "t01 t02 t03 t04 t05 t06 t07 t08 t09 t10 t11 t12 t13 t14 t15 t16 t17 t18 t19 t20 u21", ""⟩]
      (9/10)).length = 2 ∧
    ¬ (deduplicate
      [⟨"u1", "x1 x2 x3 x4 t13 t14 t15 t16 t17 t18 t19 t20 t21", ""⟩,
       ⟨"w", "t01 t02 t03 t04 t05 t06 t07 t08 t09 t10 t11 t12 t13 t14 t15 t16 t17 t18 t19 t20 t21", ""⟩,
       ⟨"w", "y1 y2 y3 y4 y5", ""⟩,
       ⟨"v", "t01 t02 t03 t04 t05 t06 t07 t08 t09 t10 t11 t12 t13 t14 t15 t16 t17 t18 t19 t20 u21", ""⟩]
      (3/10)).length ≤ (deduplicate
      [⟨"u1", "x1 x2 x3 x4 t13 t14 t15 t16 t17 t18 t19 t20 t21", ""⟩,
       ⟨"w", "t01 t02 t03 t04 t05 t06 t07 t08 t09 t10 t11 t12 t13 t14 t15 t16 t17 t18 t19 t20 t21", ""⟩,
       ⟨"w", "y1 y2 y3 y4 y5", ""⟩,
       ⟨"v", "t01 t02 t03 t04 t05 t06 t07 t08 t09 t10 t11 t12 t13 t14 t15 t16 t17 t18 t19 t20 u21", ""⟩]
      (9/10)).length := by
  refine ⟨?_, ?_, ?_⟩ <;> with_unfolding_all decide

/-- General threshold monotonicity of the greedy deduplication run under
the distinct-URL proviso, for threshold pairs with `1 + lo ≤ 2·hi` (the
regime in which a high-threshold blocker cannot serve two distinct
low-threshold survivors, by the Jaccard triangle inequality). -/
theorem dedup_threshold_mono (lo hi : ℚ) (arts : List DArticle)
    (hlo : 0 < lo) (hhi : hi ≤ 1) (hcond : 1 + lo ≤ 2 * hi)
    (hurls : List.Pairwise (fun x y => x.url = y.url → x.url = "") arts) :
    (dedup_go lo [] [] arts.enum).1.length ≤
      (dedup_go hi [] [] arts.enum).1.length := by
  classical
  have hlohi : lo ≤ hi := by linarith
  set Klo := (dedup_go lo [] [] arts.enum).1 with hKlo
  set Khi := (dedup_go hi [] [] arts.enum).1 with hKhi
  have hnodup : ∀ K : List (ℕ × DArticle), K.Sublist arts.enum → K.Nodup := by
    intro K hK
    refine List.Pairwise.imp ?_ (List.Pairwise.sublist hK (enum_fst_lt arts))
    intro p q hpq heq
    rw [heq] at hpq
    exact absurd hpq (lt_irrefl _)
  have hnlo : Klo.Nodup := hnodup _ (dedup_go_sublist _ _ _ _)
  have hnhi : Khi.Nodup := hnodup _ (dedup_go_sublist _ _ _ _)
  by_contra hcon
  push_neg at hcon
  have hcard : Khi.toFinset.card < Klo.toFinset.card := by
    rw [List.toFinset_card_of_nodup hnlo, List.toFinset_card_of_nodup hnhi]
    exact hcon
  have hblock : ∀ p ∈ Klo, p ∉ Khi →
      ∃ q, q ∈ Khi ∧ hi ≤ jacc (create_minhash p.2) (create_minhash q.2) := by
    intro p hp hnot
    have hpl : p ∈ arts.enum := (dedup_go_sublist lo [] [] arts.enum).subset hp
    have := dedup_go_dropped hi [] [] arts.enum (enum_fst_lt arts)
      (by simp) (enum_urls hurls) p hpl hnot
    rcases this with ⟨s, hs, _⟩ | ⟨q, hq, _, hsim⟩
    · simp at hs
    · exact ⟨q, hq, hsim⟩
  let f : (ℕ × DArticle) → (ℕ × DArticle) := fun p =>
    if hp : p ∈ Klo ∧ p ∉ Khi then Classical.choose (hblock p hp.1 hp.2) else p
  have hmaps : ∀ p ∈ Klo.toFinset, f p ∈ Khi.toFinset := by
    intro p hp
    rw [List.mem_toFinset] at hp
    by_cases hk : p ∈ Khi
    · have : f p = p := by simp [f, hk]
      rw [this, List.mem_toFinset]
      exact hk
    · have : f p = Classical.choose (hblock p hp hk) := by simp [f, hp, hk]
      rw [this, List.mem_toFinset]
      exact (Classical.choose_spec (hblock p hp hk)).1
  obtain ⟨x, hx, y, hy, hxy, hfeq⟩ :=
    Finset.exists_ne_map_eq_of_card_lt_of_maps_to hcard hmaps
  rw [List.mem_toFinset] at hx hy
  have hlt : jacc (create_minhash x.2) (create_minhash y.2) < lo :=
    dedup_go_pairwise_both lo [] [] arts.enum hx hy hxy
  by_cases hkx : x ∈ Khi <;> by_cases hky : y ∈ Khi
  · -- both kept at the high threshold: f is the identity on both
    have hfx : f x = x := by simp [f, hkx]
    have hfy : f y = y := by simp [f, hky]
    rw [hfx, hfy] at hfeq
    exact hxy hfeq
  · -- y was blocked by x at the high threshold
    have hfx : f x = x := by simp [f, hkx]
    have hfy : f y = Classical.choose (hblock y hy hky) := by simp [f, hy, hky]
    have hspec := (Classical.choose_spec (hblock y hy hky)).2
    rw [← hfy, ← hfeq, hfx] at hspec
    rw [jacc_comm] at hspec
    linarith
  · -- x was blocked by y at the high threshold
    have hfy : f y = y := by simp [f, hky]
    have hfx : f x = Classical.choose (hblock x hx hkx) := by simp [f, hx, hkx]
    have hspec := (Classical.choose_spec (hblock x hx hkx)).2
    rw [← hfx, hfeq, hfy] at hspec
    linarith
  · -- both blocked by the same high-threshold survivor: triangle inequality
    have hfx : f x = Classical.choose (hblock x hx hkx) := by simp [f, hx, hkx]
    have hfy : f y = Classical.choose (hblock y hy hky) := by simp [f, hy, hky]
    have hsx := (Classical.choose_spec (hblock x hx hkx)).2
    have hsy := (Classical.choose_spec (hblock y hy hky)).2
    rw [← hfx] at hsx
    rw [← hfy, ← hfeq] at hsy
    have htri := jacc_triangle (create_minhash x.2)
      (create_minhash (f x).2) (create_minhash y.2)
    rw [jacc_comm (create_minhash (f x).2)] at htri
    linarith

/-- Claim C4 (amended): for every batch in which no two articles share a
non-empty URL, `deduplicate` at threshold 0.3 returns at most as many
unique articles as at threshold 0.9. (Without the distinct-URL proviso
the property fails, see the counterexample.) -/
theorem dedup_c4_amended (arts : List DArticle)
    (hurls : List.Pairwise (fun x y => x.url = y.url → x.url = "") arts) :
    (deduplicate arts (3/10)).length ≤ (deduplicate arts (9/10)).length := by
  have hmono := dedup_threshold_mono (3/10) (9/10) arts
    (by norm_num) (by norm_num) (by norm_num) hurls
  rw [deduplicate, deduplicate, deduplicate_articles_def, deduplicate_articles_def]
  simpa using hmono

/-- Witness for `dedup_c4_amended`: a concrete batch with pairwise distinct
URLs. -/
theorem dedup_c4_amended_witness :
    (deduplicate [⟨"u1", "w1 w2 w3", ""⟩, ⟨"u2", "w1 w2 w3", ""⟩]
        (3/10)).length ≤
      (deduplicate [⟨"u1", "w1 w2 w3", ""⟩, ⟨"u2", "w1 w2 w3", ""⟩]
        (9/10)).length :=
  dedup_c4_amended [⟨"u1", "w1 w2 w3", ""⟩, ⟨"u2", "w1 w2 w3", ""⟩]
    (by decide)

/-! ## Claim C3 -/

/-- Claim C3, counterexample. `_calculate_previous_volume` parses every
entry's date with no exception handling, so one malformed date string makes
the whole trend computation raise (`none`) instead of skipping the entry:
with the malformed entry removed the same history yields a normal result,
and `find_trending_up_keywords` on a qualifying keyword with a malformed
history date aborts instead of returning a list. -/
theorem velocity_c3_cex :
    calculate_previous_volume (100 * 86400)
      [⟨.bad "not a timestamp", 5⟩, ⟨.ok (91 * 86400), 7⟩] 7 = none ∧
    calculate_previous_volume (100 * 86400) [⟨.ok (91 * 86400), 7⟩] 7 = some 7 ∧
    find_trending_up_keywords 50 5 (100 * 86400) [("k", 10)]
      [("k", [⟨.bad "not a timestamp", 5⟩, ⟨.ok (91 * 86400), 7⟩])] 7 = none := by
  refine ⟨?_, ?_, ?_⟩ <;> with_unfolding_all decide

/-- Claim C3 (amended): a malformed date string in a keyword's history
makes the computation **raise** rather than being skipped. Precisely:
(i) when every history date parses, `_calculate_previous_volume` returns
normally; (ii) one unparseable date anywhere in the history makes it raise;
(iii) hence `find_trending_up_keywords` raises whenever some keyword at or
above the volume floor has a non-empty history containing an unparseable
date. -/
theorem velocity_c3_amended :
    (∀ (now : ℚ) (history : List HistEntry) (tf : ℕ),
      (∀ e ∈ history, (parse_date e.date).isSome) →
      (calculate_previous_volume now history tf).isSome) ∧
    (∀ (now : ℚ) (history : List HistEntry) (tf : ℕ) (e : HistEntry) (s : String),
      e ∈ history → e.date = .bad s →
      calculate_previous_volume now history tf = none) ∧
    (∀ (min_growth : ℚ) (min_vol : ℤ) (now : ℚ)
      (current : List (String × ℤ)) (historical : List (String × List HistEntry))
      (tf : ℕ) (kw : String) (cur : ℤ) (history : List HistEntry)
      (e : HistEntry) (s : String),
      (kw, cur) ∈ current → min_vol ≤ cur →
      assoc_get historical kw = some history → history ≠ [] →
      e ∈ history → e.date = .bad s →
      find_trending_up_keywords min_growth min_vol now current historical tf =
        none) := by
  have hwin_some : ∀ (sd ed : ℚ) (history : List HistEntry),
      (∀ e ∈ history, (parse_date e.date).isSome) →
      (window_mentions sd ed history).isSome := by
    intro sd ed history h
    induction history with
    | nil => simp [window_mentions]
    | cons e rest ih =>
      have he := h e (by simp)
      obtain ⟨t, ht⟩ := Option.isSome_iff_exists.mp he
      simp only [window_mentions, ht]
      have := ih (fun e' he' => h e' (by simp [he']))
      obtain ⟨ms, hms⟩ := Option.isSome_iff_exists.mp this
      simp [hms]
  have hwin_none : ∀ (sd ed : ℚ) (history : List HistEntry) (e : HistEntry)
      (s : String), e ∈ history → e.date = .bad s →
      window_mentions sd ed history = none := by
    intro sd ed history e s he hs
    induction history with
    | nil => simp at he
    | cons e' rest ih =>
      simp only [List.mem_cons] at he
      rcases he with he | he
      · subst he
        simp [window_mentions, hs, parse_date]
      · simp only [window_mentions]
        cases hp : parse_date e'.date with
        | none => rfl
        | some t => rw [ih he]; rfl
  have hprev_some : ∀ (now : ℚ) (history : List HistEntry) (tf : ℕ),
      (∀ e ∈ history, (parse_date e.date).isSome) →
      (calculate_previous_volume now history tf).isSome := by
    intro now history tf h
    rw [calculate_previous_volume]
    split_ifs with h0
    · simp
    · obtain ⟨ms, hms⟩ := Option.isSome_iff_exists.mp
        (hwin_some (now - (tf : ℚ) * 86400 - (tf : ℚ) * 86400)
          (now - (tf : ℚ) * 86400) history h)
      simp only [hms]
      split_ifs <;> simp
  have hprev_none : ∀ (now : ℚ) (history : List HistEntry) (tf : ℕ)
      (e : HistEntry) (s : String), e ∈ history → e.date = .bad s →
      calculate_previous_volume now history tf = none := by
    intro now history tf e s he hs
    rw [calculate_previous_volume]
    split_ifs with h0
    · rw [h0] at he
      simp at he
    · simp only [hwin_none (now - (tf : ℚ) * 86400 - (tf : ℚ) * 86400)
        (now - (tf : ℚ) * 86400) history e s he hs]
  refine ⟨hprev_some, hprev_none, ?_⟩
  intro min_growth min_vol now current historical tf kw cur history e s
    hmem hvol hhist hne hehist hbad
  rw [find_trending_up_keywords]
  have : trending_go min_growth min_vol now historical tf current = none := by
    induction current with
    | nil => simp at hmem
    | cons hd rest ih =>
      obtain ⟨kw', cur'⟩ := hd
      simp only [List.mem_cons, Prod.mk.injEq] at hmem
      rcases hmem with ⟨hkw, hcur⟩ | hmem
      · subst hkw
        subst hcur
        simp only [trending_go]
        rw [if_neg (by omega), hhist]
        simp only [Option.getD_some]
        rw [if_neg hne, hprev_none now history tf e s hehist hbad]
      · have htail := ih hmem
        simp only [trending_go, htail]
        split_ifs <;>
          first
          | rfl
          | (cases calculate_previous_volume now
              ((assoc_get historical kw').getD []) tf <;>
              (try split_ifs) <;> simp)
          | simp
  rw [this]
  rfl

/-- Witness for `velocity_c3_amended`: a parseable singleton history
returns normally, and a qualifying keyword whose history holds one
malformed date makes the whole computation return `none`. -/
theorem velocity_c3_amended_witness :
    (calculate_previous_volume (100 * 86400) [⟨.ok (91 * 86400), 7⟩] 7).isSome ∧
    find_trending_up_keywords 50 5 (100 * 86400) [("k", 10)]
      [("k", [⟨.bad "zzz", 5⟩])] 7 = none := by
  constructor
  · exact velocity_c3_amended.1 (100 * 86400) [⟨.ok (91 * 86400), 7⟩] 7
      (by intro e he; fin_cases he; simp [parse_date])
  · exact velocity_c3_amended.2.2 50 5 (100 * 86400) [("k", 10)]
      [("k", [⟨.bad "zzz", 5⟩])] 7 "k" 10 [⟨.bad "zzz", 5⟩] ⟨.bad "zzz", 5⟩ "zzz"
      (by simp) (by norm_num) (by simp [assoc_get]) (by simp) (by simp) rfl

/-! ## Claim C5 -/

/-- Claim C5: with the constant history `[50]*10` the standard deviation is
zero, so `detect_spike` takes the degenerate branch. For
`current_volume = 500` it does flag a spike (500 > 2·50), but it reports
`z_score = 0.0` — **not** a z-score greater than 3.0 as both the claim and
the repository's own test `test_detect_spike_anomalous` (which asserts
`z_score > 3.0` on exactly this input) require. For `current_volume = 55`
it returns no spike, as claimed. -/
theorem velocity_c5_spike :
    (detect_spike 500 [⟨.ok 0, 50⟩, ⟨.ok 0, 50⟩, ⟨.ok 0, 50⟩, ⟨.ok 0, 50⟩,
      ⟨.ok 0, 50⟩, ⟨.ok 0, 50⟩, ⟨.ok 0, 50⟩, ⟨.ok 0, 50⟩, ⟨.ok 0, 50⟩,
      ⟨.ok 0, 50⟩] 3).is_spike ∧
    (detect_spike 500 [⟨.ok 0, 50⟩, ⟨.ok 0, 50⟩, ⟨.ok 0, 50⟩, ⟨.ok 0, 50⟩,
      ⟨.ok 0, 50⟩, ⟨.ok 0, 50⟩, ⟨.ok 0, 50⟩, ⟨.ok 0, 50⟩, ⟨.ok 0, 50⟩,
      ⟨.ok 0, 50⟩] 3).z_score = 0 ∧
    ¬ (3 < (detect_spike 500 [⟨.ok 0, 50⟩, ⟨.ok 0, 50⟩, ⟨.ok 0, 50⟩, ⟨.ok 0, 50⟩,
      ⟨.ok 0, 50⟩, ⟨.ok 0, 50⟩, ⟨.ok 0, 50⟩, ⟨.ok 0, 50⟩, ⟨.ok 0, 50⟩,
      ⟨.ok 0, 50⟩] 3).z_score) ∧
    ¬ (detect_spike 55 [⟨.ok 0, 50⟩, ⟨.ok 0, 50⟩, ⟨.ok 0, 50⟩, ⟨.ok 0, 50⟩,
      ⟨.ok 0, 50⟩, ⟨.ok 0, 50⟩, ⟨.ok 0, 50⟩, ⟨.ok 0, 50⟩, ⟨.ok 0, 50⟩,
      ⟨.ok 0, 50⟩] 3).is_spike := by
  rw [detect_spike, detect_spike]
  norm_num

/-! ## Claim C6 -/

/-- Claim C6, counterexample. For engagement 1 (the resolution minimum) the
numerator `engagement - 1` is zero, so the hot score is `0` at **every**
elapsed time: the score is not strictly decreasing in time for every fixed
engagement value. -/
theorem hotscore_c6_cex :
    calculate_score (9/5) 1 (.ok 0) 3600 1 = 0 ∧
    calculate_score (9/5) 1 (.ok 0) (24 * 3600) 1 = 0 ∧
    ¬ (calculate_score (9/5) 1 (.ok 0) (24 * 3600) 1 <
        calculate_score (9/5) 1 (.ok 0) 3600 1) := by
  rw [calculate_score, calculate_score]
  norm_num

theorem max_hours_eq {h : ℚ} (h0 : 0 ≤ h) :
    (max 0 ((h * 3600 - 0) / 3600) : ℚ) = h := by
  rw [sub_zero, mul_div_assoc]
  norm_num
  exact h0

/-- Strict decay of `calculate_score` in elapsed hours, for engagement at
least 2, positive gravity and positive source weight. -/
theorem calc_score_anti (g w : ℝ) (e : ℤ) (h1 h2 : ℚ)
    (hg : 0 < g) (he : 2 ≤ e) (hw : 0 < w) (h0 : 0 ≤ h1) (hlt : h1 < h2) :
    calculate_score g e (.ok 0) (h2 * 3600) w <
      calculate_score g e (.ok 0) (h1 * 3600) w := by
  rw [calculate_score, calculate_score]
  rw [max_hours_eq h0, max_hours_eq (le_of_lt (lt_of_le_of_lt h0 hlt))]
  have hnum : (0 : ℝ) < (e : ℝ) - 1 := by
    have : (2 : ℝ) ≤ (e : ℝ) := by exact_mod_cast he
    linarith
  have hb1 : (0 : ℝ) < (h1 : ℝ) + 2 := by
    have : (0 : ℝ) ≤ (h1 : ℝ) := by exact_mod_cast h0
    linarith
  have hb12 : ((h1 : ℝ) + 2) < ((h2 : ℝ) + 2) := by
    have : (h1 : ℝ) < (h2 : ℝ) := by exact_mod_cast hlt
    linarith
  have hd : ((h1 : ℝ) + 2) ^ g < ((h2 : ℝ) + 2) ^ g :=
    Real.rpow_lt_rpow (le_of_lt hb1) hb12 hg
  have hd1 : (0 : ℝ) < ((h1 : ℝ) + 2) ^ g := Real.rpow_pos_of_pos hb1 g
  have hd2 : (0 : ℝ) < ((h2 : ℝ) + 2) ^ g :=
    Real.rpow_pos_of_pos (lt_trans hb1 hb12) g
  have hdiv : ((e : ℝ) - 1) / ((h2 : ℝ) + 2) ^ g <
      ((e : ℝ) - 1) / ((h1 : ℝ) + 2) ^ g :=
    div_lt_div_of_pos_left hnum hd1 hd
  have hmul := mul_lt_mul_of_pos_right hdiv hw
  have hp1 : (0 : ℝ) < ((e : ℝ) - 1) / ((h1 : ℝ) + 2) ^ g * w :=
    mul_pos (div_pos hnum hd1) hw
  have hp2 : (0 : ℝ) < ((e : ℝ) - 1) / ((h2 : ℝ) + 2) ^ g * w :=
    mul_pos (div_pos hnum hd2) hw
  rw [max_eq_right (le_of_lt hp2), max_eq_right (le_of_lt hp1)]
  exact hmul

/-- Claim C6 (amended): for every engagement value **at least 2**, positive
gravity and positive source weight, the hot score is strictly decreasing in
elapsed time (1 hour beats 24 hours beats 365 days); and for every fixed
publication/evaluation time the score at engagement 200 strictly exceeds
the score at engagement 50. (At engagement 0 or 1 the clamped score is 0 at
every age, see the counterexample.) -/
theorem hotscore_c6_amended (g w : ℝ) (e : ℤ)
    (hg : 0 < g) (he : 2 ≤ e) (hw : 0 < w) :
    calculate_score g e (.ok 0) (24 * 3600) w <
      calculate_score g e (.ok 0) (1 * 3600) w ∧
    calculate_score g e (.ok 0) (8760 * 3600) w <
      calculate_score g e (.ok 0) (24 * 3600) w ∧
    (∀ (t now : ℚ), calculate_score g 50 (.ok t) now w <
      calculate_score g 200 (.ok t) now w) := by
  refine ⟨calc_score_anti g w e 1 24 hg he hw (by norm_num) (by norm_num),
    calc_score_anti g w e 24 8760 hg he hw (by norm_num) (by norm_num), ?_⟩
  intro t now
  rw [calculate_score, calculate_score]
  have hq : (0 : ℝ) ≤ ((max 0 ((now - t) / 3600) : ℚ) : ℝ) := by
    exact_mod_cast le_max_left 0 ((now - t) / 3600)
  have hb : (0 : ℝ) < ((max 0 ((now - t) / 3600) : ℚ) : ℝ) + 2 := by linarith
  have hd : (0 : ℝ) < (((max 0 ((now - t) / 3600) : ℚ) : ℝ) + 2) ^ g :=
    Real.rpow_pos_of_pos hb g
  have hdiv : ((50 : ℤ) : ℝ) - 1 <
      ((200 : ℤ) : ℝ) - 1 := by norm_num
  have hlt : (((50 : ℤ) : ℝ) - 1) / (((max 0 ((now - t) / 3600) : ℚ) : ℝ) + 2) ^ g * w <
      (((200 : ℤ) : ℝ) - 1) / (((max 0 ((now - t) / 3600) : ℚ) : ℝ) + 2) ^ g * w := by
    refine mul_lt_mul_of_pos_right ?_ hw
    exact div_lt_div_of_pos_right hdiv hd
  have hp1 : (0 : ℝ) < (((50 : ℤ) : ℝ) - 1) /
      (((max 0 ((now - t) / 3600) : ℚ) : ℝ) + 2) ^ g * w := by
    refine mul_pos (div_pos (by norm_num) hd) hw
  rw [max_eq_right (le_of_lt hp1),
    max_eq_right (le_of_lt (lt_trans hp1 hlt))]
  exact hlt

/-- Witness for `hotscore_c6_amended` at gravity 1.8, engagement 2, weight
1. -/
theorem hotscore_c6_amended_witness :
    calculate_score (9/5) 2 (.ok 0) (24 * 3600) 1 <
      calculate_score (9/5) 2 (.ok 0) (1 * 3600) 1 ∧
    calculate_score (9/5) 2 (.ok 0) (8760 * 3600) 1 <
      calculate_score (9/5) 2 (.ok 0) (24 * 3600) 1 ∧
    calculate_score (9/5) 50 (.ok 0) 7200 1 <
      calculate_score (9/5) 200 (.ok 0) 7200 1 := by
  have h := hotscore_c6_amended (9/5) 1 2 (by norm_num) (by norm_num) (by norm_num)
  exact ⟨h.1, h.2.1, h.2.2 0 7200⟩

/-! ## Claim C7 -/

/-- Claim C7, counterexample. An article with `score = 0` and
`comments = 0` resolves to the minimum engagement value 1, so the scoring
numerator `engagement - 1` is **zero**, not positive: its hot score is
exactly `0.0`, not strictly positive, even with a parseable timestamp and
weight 1. -/
theorem hotscore_c7_cex :
    dict_get (((score_articles (9/5) 7200 []
        [[("score", PyVal.int 0), ("comments", PyVal.int 0),
          ("published_at", PyVal.time (.ok 0))]] [0]).1)[1]?.getD [])
      "hot_score" = some (.real 0) ∧
    hot_key ((score_articles (9/5) 7200 []
        [[("score", PyVal.int 0), ("comments", PyVal.int 0),
          ("published_at", PyVal.time (.ok 0))]] [0]).1) 1 = 0 ∧
    ¬ (0 < hot_key ((score_articles (9/5) 7200 []
        [[("score", PyVal.int 0), ("comments", PyVal.int 0),
          ("published_at", PyVal.time (.ok 0))]] [0]).1) 1) := by
  have hcs : ∀ w, calculate_score (9/5) 1 (.ok 0) 7200 w = 0 := by
    intro w
    rw [calculate_score]
    norm_num
  refine ⟨?_, ?_, ?_⟩ <;>
    simp [score_articles, score_go, heap_alloc, heap_set, dict_set, dict_get,
      get_int, get_str, resolve_engagement, sort_by_hot, stable_sort,
      stable_insert, hot_key, hcs, weight_of]

/-- Claim C7 (amended): with non-negative `score` and `comments` fields the
resolved engagement is at least 1, so the scoring numerator
`engagement - 1` is **non-negative** and the hot score is non-negative —
but an article that resolves to the minimum engagement 1 (zero score and
zero comments) receives hot score exactly `0`; the score is strictly
positive for resolved engagement at least 2, a parseable timestamp and a
positive source weight. -/
theorem hotscore_c7_amended :
    (∀ d : PyDict, 0 ≤ get_int d "score" → 0 ≤ get_int d "comments" →
      1 ≤ resolve_engagement d) ∧
    (∀ (g : ℝ) (e : ℤ) (pub : TimeStr) (now : ℚ) (w : ℝ),
      0 ≤ calculate_score g e pub now w) ∧
    (∀ (g : ℝ) (t now : ℚ) (w : ℝ), calculate_score g 1 (.ok t) now w = 0) ∧
    (∀ (g : ℝ) (e : ℤ) (t now : ℚ) (w : ℝ), 2 ≤ e → 0 < w →
      0 < calculate_score g e (.ok t) now w) := by
  refine ⟨?_, ?_, ?_, ?_⟩
  · intro d h1 h2
    rw [resolve_engagement]
    split_ifs <;> omega
  · intro g e pub now w
    cases pub with
    | bad s => rw [calculate_score]
    | ok t =>
      rw [calculate_score]
      exact le_max_left _ _
  · intro g t now w
    rw [calculate_score]
    norm_num
  · intro g e t now w he hw
    rw [calculate_score]
    have hq : (0 : ℝ) ≤ ((max 0 ((now - t) / 3600) : ℚ) : ℝ) := by
      exact_mod_cast le_max_left 0 ((now - t) / 3600)
    have hd : (0 : ℝ) < (((max 0 ((now - t) / 3600) : ℚ) : ℝ) + 2) ^ g :=
      Real.rpow_pos_of_pos (by linarith) g
    have hnum : (0 : ℝ) < (e : ℝ) - 1 := by
      have : (2 : ℝ) ≤ (e : ℝ) := by exact_mod_cast he
      linarith
    exact lt_max_iff.mpr (Or.inr (mul_pos (div_pos hnum hd) hw))

/-- Witness for `hotscore_c7_amended`: the empty dict resolves to
engagement 1; at engagement 2 with weight 1 the score is positive. -/
theorem hotscore_c7_amended_witness :
    (0 ≤ get_int [] "score" ∧ 0 ≤ get_int [] "comments" ∧
      1 ≤ resolve_engagement []) ∧
    calculate_score (9/5) 1 (.ok 0) 7200 1 = 0 ∧
    0 < calculate_score (9/5) 2 (.ok 0) 7200 1 :=
  ⟨⟨by decide, by decide,
      hotscore_c7_amended.1 [] (by decide) (by decide)⟩,
    hotscore_c7_amended.2.2.1 (9/5) 0 7200 1,
    hotscore_c7_amended.2.2.2 (9/5) 2 0 7200 1 (by norm_num) (by norm_num)⟩

/-! ## Claim C9 -/

theorem set_append_length {α : Type} (l : List α) (a x : α) :
    (l ++ [a]).set l.length x = l ++ [x] := by
  induction l with
  | nil => rfl
  | cons b rest ih => simp [List.set, ih]

theorem mem_stable_insert {α : Type} (gt : α → α → Bool) (x a : α)
    (l : List α) : a ∈ stable_insert gt x l ↔ a = x ∨ a ∈ l := by
  induction l with
  | nil => simp [stable_insert]
  | cons y ys ih =>
    rw [stable_insert]
    split_ifs with h
    · simp only [List.mem_cons, ih]
      tauto
    · simp only [List.mem_cons]

theorem mem_stable_sort {α : Type} (gt : α → α → Bool) (a : α) (l : List α) :
    a ∈ stable_sort gt l ↔ a ∈ l := by
  induction l with
  | nil => simp [stable_sort]
  | cons x xs ih =>
    rw [stable_sort, mem_stable_insert, ih]
    simp

/-- The scoring loop only allocates: it extends the heap on the right and
every reference it returns is fresh (at least the initial heap length). -/
theorem score_go_append (g : ℝ) (now : ℚ) (ws : List (String × ℝ)) :
    ∀ (refs : List ℕ) (h : PyHeap),
      (∃ ext, (score_go g now ws h refs).1 = h ++ ext) ∧
      (∀ r ∈ (score_go g now ws h refs).2, h.length ≤ r) := by
  intro refs
  induction refs with
  | nil =>
    intro h
    exact ⟨⟨[], by simp [score_go]⟩, by simp [score_go]⟩
  | cons r rest ih =>
    intro h
    have hstep : ∀ v : PyVal,
        heap_set (h ++ [(h[r]?).getD []]) h.length "hot_score" v =
          h ++ [dict_set ((h[r]?).getD []) "hot_score" v] := by
      intro v
      rw [heap_set]
      rw [show (h ++ [(h[r]?).getD []])[h.length]? = some ((h[r]?).getD [])
        from List.getElem?_concat_length _ _]
      exact set_append_length _ _ _
    simp only [score_go, heap_alloc]
    rw [hstep]
    obtain ⟨⟨ext, hext⟩, hrefs⟩ := ih (h ++ [dict_set ((h[r]?).getD [])
      "hot_score" (.real (match dict_get ((h[r]?).getD []) "published_at" with
        | some (.time ts) => calculate_score g (resolve_engagement ((h[r]?).getD []))
            ts now (weight_of ws (get_str ((h[r]?).getD []) "source"))
        | _ => 0))])
    constructor
    · rw [hext, List.append_assoc]
      exact ⟨_, rfl⟩
    · intro r' hr'
      simp only [List.mem_cons] at hr'
      rcases hr' with hr' | hr'
      · omega
      · have := hrefs r' hr'
        simp only [List.length_append, List.length_singleton] at this
        omega

/-- Claim C9: `score_articles` does not mutate any input article dict —
the heap is only extended, so every pre-existing reference still resolves
to its original dict — and every returned (scored, sorted) reference is a
fresh copy allocated by the call. -/
theorem hotscore_c9 (g : ℝ) (now : ℚ) (ws : List (String × ℝ))
    (h : PyHeap) (refs : List ℕ) :
    (∀ r, r < h.length → ((score_articles g now ws h refs).1)[r]? = h[r]?) ∧
    (∀ r ∈ (score_articles g now ws h refs).2, h.length ≤ r) := by
  obtain ⟨⟨ext, hext⟩, hrefs⟩ := score_go_append g now ws refs h
  constructor
  · intro r hr
    rw [score_articles]
    simp only [hext]
    exact List.getElem?_append_left hr
  · intro r hr
    rw [score_articles] at hr
    simp only [sort_by_hot] at hr
    rw [mem_stable_sort] at hr
    exact hrefs r hr

/-- Witness for `hotscore_c9`: a one-dict heap is untouched by scoring. -/
theorem hotscore_c9_witness :
    (0 < ([[("title", PyVal.str "t")]] : PyHeap).length) ∧
    ((score_articles (9/5) 0 [] [[("title", PyVal.str "t")]] [0]).1)[0]? =
      ([[("title", PyVal.str "t")]] : PyHeap)[0]? ∧
    ((0 : ℕ) ∈ (score_articles (9/5) 0 [] [[("title", PyVal.str "t")]] [0]).2 →
      ([[("title", PyVal.str "t")]] : PyHeap).length ≤ 0) :=
  ⟨by simp,
    (hotscore_c9 (9/5) 0 [] [[("title", PyVal.str "t")]] [0]).1 0 (by simp),
    (hotscore_c9 (9/5) 0 [] [[("title", PyVal.str "t")]] [0]).2 0⟩

/-! ## Claim C8 -/

theorem dedup_ci_subset : ∀ (seen : List String) (l : List String)
    (kw : String), kw ∈ dedup_ci_go seen l → kw ∈ l := by
  intro seen l
  induction l generalizing seen with
  | nil => simp [dedup_ci_go]
  | cons x xs ih =>
    intro kw hkw
    rw [dedup_ci_go] at hkw
    split_ifs at hkw with h
    · exact List.mem_cons_of_mem _ (ih seen kw hkw)
    · rcases List.mem_cons.mp hkw with hkw | hkw
      · exact hkw ▸ List.mem_cons_self _ _
      · exact List.mem_cons_of_mem _ (ih _ kw hkw)

theorem counter_bump_keys {acc : List (String × ℕ)} {s : String}
    {p : String × ℕ} (h : p ∈ counter_bump acc s) :
    p.1 ∈ acc.map Prod.fst ∨ p.1 = s := by
  rw [counter_bump] at h
  split_ifs at h with hs
  · obtain ⟨q, hq, hqe⟩ := List.mem_map.mp h
    left
    split_ifs at hqe with hq1
    · rw [← hqe]
      exact hq1 ▸ List.mem_map_of_mem Prod.fst hq
    · rw [← hqe]
      exact List.mem_map_of_mem Prod.fst hq
  · rcases List.mem_append.mp h with h | h
    · exact Or.inl (List.mem_map_of_mem Prod.fst h)
    · simp only [List.mem_singleton] at h
      exact Or.inr (by rw [h])

theorem counter_keys : ∀ (l : List String) (acc : List (String × ℕ))
    (p : String × ℕ), p ∈ List.foldl counter_bump acc l →
    p.1 ∈ acc.map Prod.fst ∨ p.1 ∈ l := by
  intro l
  induction l with
  | nil =>
    intro acc p hp
    rw [List.foldl_nil] at hp
    exact Or.inl (List.mem_map_of_mem Prod.fst hp)
  | cons s rest ih =>
    intro acc p hp
    rw [List.foldl_cons] at hp
    rcases ih (counter_bump acc s) p hp with h | h
    · obtain ⟨q, hq, hqe⟩ := List.mem_map.mp h
      rcases counter_bump_keys hq with h' | h'
      · exact Or.inl (hqe ▸ h')
      · exact Or.inr (by simp [← hqe, h'])
    · exact Or.inr (by simp [h])

/-- Claim C8 (amended): the **per-article** keyword lists are
case/acronym-normalized — every phrase returned by `extract_from_article`
is the normalization of a raw ranked phrase — but the aggregated
keyword→frequency mapping of `extract_from_articles`, and hence every
keyword returned by `get_top_keywords`, is **lower-cased** (the `Counter`
runs over `kw.lower()`), not normalized. -/
theorem keyword_c8_amended :
    (∀ (minL maxK : ℕ) (ranked : List String) (kw : String),
      kw ∈ extract_from_article minL maxK ranked →
      ∃ raw ∈ ranked, kw = normalize_keyword raw) ∧
    (∀ (minL maxK minF : ℕ) (rls : List (List String)) (p : String × ℕ),
      p ∈ extract_from_articles minL maxK rls minF →
      ∃ s, p.1 = py_lower s) ∧
    (∀ (minL maxK : ℕ) (articles : List KArticle) (rls : List (List String))
      (topN minF : ℕ) (row : TopKw),
      row ∈ get_top_keywords minL maxK articles rls topN minF →
      ∃ s, row.keyword = py_lower s) := by
  have hpart2 : ∀ (minL maxK minF : ℕ) (rls : List (List String))
      (p : String × ℕ), p ∈ extract_from_articles minL maxK rls minF →
      ∃ s, p.1 = py_lower s := by
    intro minL maxK minF rls p hp
    rw [extract_from_articles] at hp
    have hp' := List.mem_of_mem_filter hp
    rw [py_counter] at hp'
    rcases counter_keys _ [] p hp' with h | h
    · simp at h
    · obtain ⟨s, _, hs⟩ := List.mem_map.mp h
      exact ⟨s, hs.symm⟩
  refine ⟨?_, hpart2, ?_⟩
  · intro minL maxK ranked kw hkw
    rw [extract_from_article] at hkw
    have h1 : kw ∈ dedup_ci_go []
        (((ranked.take maxK).filter (fun k => minL ≤ k.length)).map
          normalize_keyword) := List.mem_of_mem_take hkw
    have h2 := dedup_ci_subset _ _ _ h1
    obtain ⟨raw, hraw, hrn⟩ := List.mem_map.mp h2
    exact ⟨raw, List.mem_of_mem_take (List.mem_of_mem_filter hraw),
      hrn.symm⟩
  · intro minL maxK articles rls topN minF row hrow
    rw [get_top_keywords] at hrow
    obtain ⟨p, hp, hpe⟩ := List.mem_map.mp hrow
    have hp1 : p ∈ stable_sort (fun a b => decide (b.2 < a.2))
        (extract_from_articles minL maxK rls minF) := List.mem_of_mem_take hp
    rw [mem_stable_sort] at hp1
    obtain ⟨s, hs⟩ := hpart2 minL maxK minF rls p hp1
    exact ⟨s, by rw [← hpe]; exact hs⟩

/-- Claim C8, counterexample. The phrase "machine learning", extracted from
two articles, normalizes to "Machine Learning" per article, but the
aggregated mapping of `extract_from_articles` keys it as the raw
lower-case "machine learning", and `get_top_keywords` returns that
lower-case string: the aggregated keywords are not case-normalized. -/
theorem keyword_c8_cex :
    extract_from_article 3 10 ["machine learning"] = ["Machine Learning"] ∧
    extract_from_articles 3 10 [["machine learning"], ["machine learning"]] 2 =
      [("machine learning", 2)] ∧
    normalize_keyword "machine learning" = "Machine Learning" ∧
    ("machine learning" : String) ≠ "Machine Learning" ∧
    (get_top_keywords 3 10 [] [["machine learning"], ["machine learning"]]
      20 2).map TopKw.keyword = ["machine learning"] := by
  refine ⟨?_, ?_, ?_, ?_, ?_⟩ <;> decide

/-- Witness for `keyword_c8_amended` at a concrete ranked-phrase list. -/
theorem keyword_c8_amended_witness :
    (∃ raw ∈ (["machine learning"] : List String),
      ("Machine Learning" : String) = normalize_keyword raw) ∧
    (∃ s, ("machine learning" : String) = py_lower s) :=
  ⟨keyword_c8_amended.1 3 10 ["machine learning"] "Machine Learning"
      (by decide),
    keyword_c8_amended.2.1 3 10 2 [["machine learning"], ["machine learning"]]
      ("machine learning", 2) (by decide)⟩

end EmberFeed
